import Mathlib

/-!
Shallow embedding of the NeoSavage dice system: the random die primitives
(regularDice.js), the Savage Worlds wild-die roll (savageWorldsDice.js),
the R2 expression evaluator (r2Evaluator.js) and the modifier normalization
pass (diceCommands.js, normalizeExpression).  Randomness is modelled by a
stream of rational draws u with 0 <= u < 1, one per Math.random() call.
-/

namespace NeoSavage

/-- Stream of Math.random() outcomes: the n-th call returns the rational at
index n. -/
abbrev Rng := Nat → ℚ

/-- Every draw of the stream lies in the interval of Math.random(): [0, 1). -/
def Rng.Valid (us : Rng) : Prop := ∀ n, 0 ≤ us n ∧ us n < 1

/-- rollDie from regularDice.js: Math.floor(Math.random() * sides) + 1,
with the Math.random() outcome passed explicitly as u. -/
def rollDie (sides : ℤ) (u : ℚ) : ℤ := ⌊u * (sides : ℚ)⌋ + 1

/-- Error taxonomy of the spec (section 7).  The source never constructs
these; the definition exists to state the spec side of claim C8. -/
inductive DiceError : Type where
  | invalidDie (sides : ℤ)
deriving DecidableEq

/-- Modelled from the spec: rollDie as section 4.1 describes it, failing with
InvalidDie when sides < 1.  Kept separate from rollDie, which embeds the
actual source (no validation). -/
def rollDieSpecified (sides : ℤ) (u : ℚ) : Except DiceError ℤ :=
  if sides < 1 then .error (.invalidDie sides) else .ok (⌊u * (sides : ℚ)⌋ + 1)

/-- Nested die structure built by rollAcingDie (regularDice.js, nested
variant): value, exploded flag, optional nextRoll and running total. -/
inductive Die : Type where
  | mk (value : ℤ) (exploded : Bool) (nextRoll : Option Die) (total : ℤ)

def Die.value : Die → ℤ
  | .mk v _ _ _ => v

def Die.exploded : Die → Bool
  | .mk _ e _ _ => e

def Die.nextRoll : Die → Option Die
  | .mk _ _ n _ => n

def Die.total : Die → ℤ
  | .mk _ _ _ t => t

/-- All rolled values along the explosion chain, first roll first. -/
def Die.chainValues : Die → List ℤ
  | .mk v _ none _ => [v]
  | .mk v _ (some d) _ => v :: d.chainValues

/-- buildNestedRoll from rollAcingDie (regularDice.js):
exploded = (currentRoll === sides && acesLeft > 0); when exploded, roll the
next die, chain it and add its total.  The stream index i is threaded
explicitly, one index per rollDie call. -/
def buildNestedRoll (sides : ℤ) (us : Rng) (currentRoll : ℤ) (acesLeft : Nat)
    (i : Nat) : Die × Nat :=
  if h : currentRoll = sides ∧ 0 < acesLeft then
    let nextValue := rollDie sides (us i)
    let next := buildNestedRoll sides us nextValue (acesLeft - 1) (i + 1)
    (Die.mk currentRoll true (some next.1) (currentRoll + next.1.total), next.2)
  else
    (Die.mk currentRoll false none currentRoll, i)
termination_by acesLeft
decreasing_by omega

/-- rollAcingDie from regularDice.js: first roll, then the nested explosion
chain with the maxAces budget. -/
def rollAcingDie (sides : ℤ) (maxAces : Nat) (us : Rng) (i : Nat) : Die × Nat :=
  buildNestedRoll sides us (rollDie sides (us i)) maxAces (i + 1)

/-- Core acing invariant of the spec, at a given remaining explosion budget:
the recorded total is the sum of all chain values, the exploded flag is set
exactly when the value hit the face count while budget remained, and the
invariant holds recursively along the chain with the budget decremented. -/
def AcingInv (sides : ℤ) (budget : Nat) : Die → Prop
  | .mk v e none t =>
      t = (Die.mk v e none t).chainValues.sum ∧
      (e = true ↔ (v = sides ∧ 0 < budget))
  | .mk v e (some d) t =>
      t = (Die.mk v e (some d) t).chainValues.sum ∧
      (e = true ↔ (v = sides ∧ 0 < budget)) ∧
      AcingInv sides (budget - 1) d

theorem AcingInv.total_eq {sides : ℤ} {budget : Nat} {d : Die}
    (h : AcingInv sides budget d) : d.total = d.chainValues.sum := by
  match d with
  | .mk v e none t => exact h.1
  | .mk v e (some d0) t => exact h.1

theorem buildNestedRoll_inv (sides : ℤ) (us : Rng) :
    ∀ (acesLeft : Nat) (currentRoll : ℤ) (i : Nat),
      AcingInv sides acesLeft (buildNestedRoll sides us currentRoll acesLeft i).1 := by
  intro acesLeft
  induction acesLeft with
  | zero =>
      intro currentRoll i
      rw [buildNestedRoll]
      simp only [Nat.lt_irrefl, and_false, dite_false]
      constructor
      · simp [Die.chainValues]
      · simp
  | succ n ih =>
      intro currentRoll i
      rw [buildNestedRoll]
      by_cases h : currentRoll = sides
      · simp only [h, Nat.succ_sub_one, true_and, Nat.zero_lt_succ, dite_true]
        refine ⟨?_, ?_, ?_⟩
        · have := (ih (rollDie sides (us i)) (i + 1)).total_eq
          simp [Die.chainValues, Die.total] at this ⊢
          omega
        · simp
        · simpa using ih (rollDie sides (us i)) (i + 1)
      · simp only [h, false_and, dite_false]
        constructor
        · simp [Die.chainValues]
        · simp [h]

/-- C1: for every call rollAcingDie(sides, maxAces) with sides >= 2, the
returned die structure satisfies the core acing invariant: its total equals
the arithmetic sum of all rolled values of the explosion chain, and each
entry is flagged exploded exactly when its rolled value equals sides and the
explosion budget was not yet exhausted at that entry. -/
theorem rollAcingDie_acing_invariant (sides : ℤ) (maxAces : Nat) (us : Rng)
    (i : Nat) (hs : 2 ≤ sides) :
    AcingInv sides maxAces (rollAcingDie sides maxAces us i).1 := by
  unfold rollAcingDie
  exact buildNestedRoll_inv sides us maxAces (rollDie sides (us i)) (i + 1)

theorem rollAcingDie_acing_invariant_witness :
    (2 ≤ (6 : ℤ)) ∧
      AcingInv 6 100 (rollAcingDie 6 100 (fun _ => 0) 0).1 :=
  ⟨by norm_num, rollAcingDie_acing_invariant 6 100 (fun _ => 0) 0 (by norm_num)⟩

theorem buildNestedRoll_chain_length (sides : ℤ) (us : Rng) :
    ∀ (acesLeft : Nat) (currentRoll : ℤ) (i : Nat),
      ((buildNestedRoll sides us currentRoll acesLeft i).1).chainValues.length
        ≤ acesLeft + 1 := by
  intro acesLeft
  induction acesLeft with
  | zero =>
      intro currentRoll i
      rw [buildNestedRoll]
      simp [Die.chainValues]
  | succ n ih =>
      intro currentRoll i
      rw [buildNestedRoll]
      by_cases h : currentRoll = sides
      · simp only [h, Nat.succ_sub_one, true_and, Nat.zero_lt_succ, dite_true]
        have := ih (rollDie sides (us i)) (i + 1)
        simp [Die.chainValues] at this ⊢
        omega
      · simp [h, Die.chainValues]

/-- C6: rollAcingDie terminates for every sides >= 1 (it is a total function
of the draw stream), and the explosion chain never exceeds the budget bound:
at most maxAces explosions, hence at most maxAces + 1 rolled values. -/
theorem rollAcingDie_chain_length_bounded (sides : ℤ) (maxAces : Nat)
    (us : Rng) (i : Nat) (hs : 1 ≤ sides) :
    ((rollAcingDie sides maxAces us i).1).chainValues.length ≤ maxAces + 1 := by
  unfold rollAcingDie
  exact buildNestedRoll_chain_length sides us maxAces (rollDie sides (us i)) (i + 1)

theorem rollAcingDie_chain_length_bounded_witness :
    (1 ≤ (1 : ℤ)) ∧
      ((rollAcingDie 1 3 (fun _ => 0) 0).1).chainValues.length ≤ 3 + 1 :=
  ⟨by norm_num, rollAcingDie_chain_length_bounded 1 3 (fun _ => 0) 0 (by norm_num)⟩

/-- C8 counterexample: the source rollDie performs no validation, so a die
with sides = 0 does not fail with InvalidDie as claimed; it returns the
ordinary value 1 (Math.floor(u * 0) + 1), while the spec-side definition
errors out on the same input. -/
theorem rollDie_no_invalid_die_error :
    rollDie 0 0 = 1 ∧ rollDieSpecified 0 0 = .error (.invalidDie 0) := by
  constructor
  · simp [rollDie]
  · simp [rollDieSpecified]

theorem rollDie_bounds (sides : ℤ) (u : ℚ) (hs : 1 ≤ sides) (hu0 : 0 ≤ u)
    (hu1 : u < 1) : 1 ≤ rollDie sides u ∧ rollDie sides u ≤ sides := by
  unfold rollDie
  have hspos : (0 : ℚ) < (sides : ℚ) := by exact_mod_cast lt_of_lt_of_le one_pos hs
  constructor
  · have : (0 : ℚ) ≤ u * (sides : ℚ) := mul_nonneg hu0 (le_of_lt hspos)
    have := Int.floor_nonneg.mpr this
    omega
  · have hlt : u * (sides : ℚ) < (sides : ℚ) := by
      calc u * (sides : ℚ) < 1 * (sides : ℚ) := by
            exact mul_lt_mul_of_pos_right hu1 hspos
        _ = (sides : ℚ) := one_mul _
    have := Int.floor_lt.mpr (by exact_mod_cast hlt)
    omega

/-- C8 amended: rollDie never fails; for sides >= 1 and a valid draw it
returns an inclusive integer in [1, sides] (no InvalidDie check exists in
the source for sides < 1). -/
theorem rollDie_range (sides : ℤ) (u : ℚ) (hs : 1 ≤ sides) (hu0 : 0 ≤ u)
    (hu1 : u < 1) : 1 ≤ rollDie sides u ∧ rollDie sides u ≤ sides :=
  rollDie_bounds sides u hs hu0 hu1

theorem rollDie_range_witness :
    (1 ≤ (6 : ℤ)) ∧ (0 ≤ (0 : ℚ)) ∧ ((0 : ℚ) < 1) ∧
      (1 ≤ rollDie 6 0 ∧ rollDie 6 0 ≤ 6) :=
  ⟨by norm_num, by norm_num, by norm_num,
    rollDie_range 6 0 (by norm_num) (by norm_num) (by norm_num)⟩

/-- keepOperation values of GenericRollResult. -/
inductive KeepOp : Type where
  | highest
  | lowest
  | advantage
  | disadvantage
deriving DecidableEq

/-- usedDie values of SavageWildRollResult. -/
inductive UsedDie : Type where
  | trait
  | wild
deriving DecidableEq

/-- Raises record computed by the evaluator (the derived description string
is presentation-only and omitted). -/
structure Raises : Type where
  success : Bool
  raises : ℤ
  margin : ℤ
deriving DecidableEq

/-- Tagged union of evaluator results (RollResult and its subclasses in
r2Evaluator.js).  The dynamic targetNumber/raiseInterval/raises add-ons of
GenericRollResult are modelled as optional fields. -/
inductive RollResult : Type where
  | base (value : ℤ)
  | generic (value : ℤ) (dice : List Die) (modifier : Option ℤ)
      (droppedDice : List Die) (keepOperation : Option KeepOp)
      (targetNumber raiseInterval : Option ℤ) (raises : Option Raises)
  | savageWild (value : ℤ) (traitDie wildDie : Die) (usedDie : UsedDie)
      (modifier : ℤ) (targetNumber raiseInterval : Option ℤ)
      (raises : Option Raises)
  | successFail (value : ℤ) (dice : List Die) (successes failures : ℤ)
      (successTarget : ℤ) (failTarget : Option ℤ)
  | multiple (value : ℤ) (rolls : List RollResult)
  | simple (value : ℤ)

def RollResult.value : RollResult → ℤ
  | .base v => v
  | .generic v _ _ _ _ _ _ _ => v
  | .savageWild v _ _ _ _ _ _ _ => v
  | .successFail v _ _ _ _ _ => v
  | .multiple v _ => v
  | .simple v => v

/-- Keep-suffix token text after toLowerCase: k, kl, adv or dis (the closed
set the R2 grammar can produce). -/
inductive KeepTok : Type where
  | k
  | kl
  | adv
  | dis
deriving DecidableEq

/-- Raw targetNumberAndRaiseStep context fields (tt/tr/tnr/tgtn), resolved
identically at every call site of the source. -/
structure TnRaiseCtx : Type where
  tt : Option ℤ
  tr : Option ℤ
  tnr : Option ℤ
  tgtn : Option ℤ
deriving DecidableEq

/-- Resolution of a targetNumberAndRaiseStep context exactly as the repeated
source snippet does: defaults 4/4, tnr overrides both, tgtn overrides the
target number. -/
def TnRaiseCtx.resolve (c : TnRaiseCtx) : ℤ × ℤ :=
  let targetNumber := c.tt.getD 4
  let raiseInterval := c.tr.getD 4
  let tn2 := match c.tnr with
    | some n => (n, n)
    | none => (targetNumber, raiseInterval)
  match c.tgtn with
  | some n => (n, tn2.2)
  | none => tn2

/-- genericRollSuffix alternatives of the R2 grammar. -/
inductive GenericRollSuffix : Type where
  | rollAndKeep (op : KeepTok) (n : Option Nat)
  | successOrFail (sn : ℤ) (fn : Option ℤ)
  | targetNumberAndRaise (ctx : TnRaiseCtx)

/-- Stable descending sort by die total: the JS Array.prototype.sort with
comparator (a, b) => b.total - a.total is a stable sort, embedded as
insertion sort with this relation (the unique stable descending order). -/
def sortByTotalDesc (dice : List Die) : List Die :=
  dice.insertionSort (fun a b => b.total ≤ a.total)

/-- Stable ascending sort by die total, for keep-lowest. -/
def sortByTotalAsc (dice : List Die) : List Die :=
  dice.insertionSort (fun a b => a.total ≤ b.total)

/-- applyGenericSuffix from r2Evaluator.js.  The kept/dropped per-die marker
field added by the source ( \x7b...die, kept: true\x7d spread) is
presentation-only and omitted; keep semantics uses die totals only.
In the success/fail branch the source guards with the truthiness of
failTarget, so failTarget = 0 counts no failures. -/
def applyGenericSuffix (dice : List Die) (sfx : GenericRollSuffix) : RollResult :=
  match sfx with
  | .rollAndKeep op n =>
      let keepCount := n.getD 1
      let sorted := match op with
        | .k | .adv => sortByTotalDesc dice
        | .kl | .dis => sortByTotalAsc dice
      let keepOperation : KeepOp := match op with
        | .k => .highest
        | .adv => .advantage
        | .kl => .lowest
        | .dis => .disadvantage
      let keptDice := sorted.take keepCount
      let droppedDice := sorted.drop keepCount
      let total := (keptDice.map Die.total).sum
      .generic total (keptDice ++ droppedDice) none droppedDice
        (some keepOperation) none none none
  | .successOrFail sn fn =>
      let successes : ℤ := (dice.filter (fun d => sn ≤ d.total)).length
      let failures : ℤ := match fn with
        | some f => if f ≠ 0 then ((dice.filter (fun d => d.total ≤ f)).length : ℤ) else 0
        | none => 0
      .successFail successes dice successes failures sn fn
  | .targetNumberAndRaise ctx =>
      let total := (dice.map Die.total).sum
      let tnri := ctx.resolve
      let margin := total - tnri.1
      let success := 0 ≤ margin
      let raiseCount := if success then Int.fdiv margin tnri.2 else 0
      .generic total dice none [] none (some tnri.1) (some tnri.2)
        (some ⟨decide success, raiseCount, margin⟩)

/-- Expression nodes of the R2 parse tree that the embedded evaluator
covers (the node kinds the claims are about). -/
inductive Expr : Type where
  | intTerm (n : ℤ)
  | varTerm (name : String)
  | assign (name : String) (e : Expr)
  | addSub (isAdd : Bool) (e1 e2 : Expr)
  | mulDivMod (op : Nat) (e1 e2 : Expr)
  | genericRoll (count : Nat) (sides : Nat) (acing : Bool)
      (sfx : Option GenericRollSuffix)
  | gygaxRange (g0 g1 : ℤ)

/-- Evaluator state: the visitor's variables map (association list with
newest binding first, matching Map.get/set observably) plus the next index
into the random stream. -/
structure EvalSt : Type where
  vars : List (String × ℤ)
  idx : Nat
deriving DecidableEq

/-- Variable read, this.variables.get(name) with JS falsy default 0 for an
absent binding. -/
def varGet (vars : List (String × ℤ)) (name : String) : ℤ :=
  match vars.lookup name with
  | some v => v
  | none => 0

/-- Loop of visitGenericRollExpr for plain (non-acing) dice: each die is
built as value/exploded:false/nextRoll:null/total:value. -/
def rollPlainDice (sides : Nat) (us : Rng) : Nat → Nat → List Die × Nat
  | 0, i => ([], i)
  | Nat.succ n, i =>
      let v := rollDie (sides : ℤ) (us i)
      let rest := rollPlainDice sides us n (i + 1)
      (Die.mk v false none v :: rest.1, rest.2)

/-- Loop of visitGenericRollExpr for acing dice: rollAcingDie with the
default budget 100 per die. -/
def rollAcingDice (sides : Nat) (us : Rng) : Nat → Nat → List Die × Nat
  | 0, i => ([], i)
  | Nat.succ n, i =>
      let d := rollAcingDie (sides : ℤ) 100 us i
      let rest := rollAcingDice sides us n d.2
      (d.1 :: rest.1, rest.2)

/-- Expression evaluation, one case per visitor method of r2Evaluator.js.
mulDivMod op codes: 0 is *, 1 is / (Math.floor of the quotient, embedded as
floor division; JS division by zero produces a non-integer and is outside
this model), any other code is % (JS truncated remainder). -/
def evalExpr (us : Rng) : Expr → EvalSt → RollResult × EvalSt
  | .intTerm n, st => (.base n, st)
  | .varTerm name, st => (.base (varGet st.vars name), st)
  | .assign name e, st =>
      let r := evalExpr us e st
      (r.1, ⟨(name, r.1.value) :: r.2.vars, r.2.idx⟩)
  | .addSub isAdd e1 e2, st =>
      let l := evalExpr us e1 st
      let r := evalExpr us e2 l.2
      let modifierValue := if isAdd then r.1.value else -r.1.value
      let result := l.1.value + modifierValue
      match l.1 with
      | .generic _ dice _ dropped keepOp _ _ _ =>
          (.generic result dice (some modifierValue) dropped keepOp
            none none none, r.2)
      | .savageWild _ td wd ud _ tn ri raises =>
          let raisesNew := match raises, tn with
            | some _, some tnv =>
                some ⟨decide (tnv ≤ result),
                  if tnv ≤ result then Int.fdiv (result - tnv) (ri.getD 0) else 0,
                  result - tnv⟩
            | _, _ => raises
          (.savageWild result td wd ud modifierValue tn ri raisesNew, r.2)
      | _ => (.simple result, r.2)
  | .mulDivMod op e1 e2, st =>
      let l := evalExpr us e1 st
      let r := evalExpr us e2 l.2
      let result := if op = 0 then l.1.value * r.1.value
        else if op = 1 then Int.fdiv l.1.value r.1.value
        else Int.tmod l.1.value r.1.value
      (.base result, r.2)
  | .genericRoll count sides acing sfx, st =>
      let rolled := if acing then rollAcingDice sides us count st.idx
        else rollPlainDice sides us count st.idx
      let st2 : EvalSt := ⟨st.vars, rolled.2⟩
      match sfx with
      | some s => (applyGenericSuffix rolled.1 s, st2)
      | none => (.generic ((rolled.1.map Die.total).sum) rolled.1 none [] none
          none none none, st2)
  | .gygaxRange g0 g1, st =>
      let result := g0 + ⌊us st.idx * ((g1 - g0 + 1 : ℤ) : ℚ)⌋
      (.base result, ⟨st.vars, st.idx + 1⟩)

/-- Statement list evaluation: statements.map(stmt => this.visit(stmt)) with
the visitor's shared variable map threaded left to right. -/
def evalStatements (us : Rng) : List Expr → EvalSt → List RollResult × EvalSt
  | [], st => ([], st)
  | e :: rest, st =>
      let r := evalExpr us e st
      let rs := evalStatements us rest r.2
      (r.1 :: rs.1, rs.2)

/-- visitCommandElement from r2Evaluator.js: a single statement returns its
result; several statements return a RollResult whose value is the sum of
the statement values (results.reduce adding r.value). -/
def visitCommandElement (us : Rng) (stmts : List Expr) : RollResult :=
  let results := (evalStatements us stmts ⟨[], 0⟩).1
  match results with
  | [r] => r
  | rs => .base ((rs.map RollResult.value).sum)

/-- C10: referencing a variable that was never assigned does not fail; the
variable term evaluates to a plain result with value 0 and leaves the state
untouched. -/
theorem unbound_var_defaults_zero (name : String) (st : EvalSt) (us : Rng)
    (h : st.vars.lookup name = none) :
    evalExpr us (.varTerm name) st = (.base 0, st) := by
  simp [evalExpr, varGet, h]

theorem unbound_var_defaults_zero_witness :
    (([] : List (String × ℤ)).lookup "x" = none) ∧
      evalExpr (fun _ => 0) (.varTerm "x") ⟨[], 0⟩ = (.base 0, ⟨[], 0⟩) :=
  ⟨rfl, unbound_var_defaults_zero "x" ⟨[], 0⟩ (fun _ => 0) rfl⟩

/-- C9: the Gygax range roll g0--g1 always lands in the inclusive interval
from min(g0, g1) to max(g0, g1), for every valid draw, including when
g0 > g1. -/
theorem gygax_range_in_bounds (g0 g1 : ℤ) (us : Rng) (st : EvalSt)
    (h : Rng.Valid us) :
    min g0 g1 ≤ (evalExpr us (.gygaxRange g0 g1) st).1.value ∧
    (evalExpr us (.gygaxRange g0 g1) st).1.value ≤ max g0 g1 := by
  obtain ⟨hu0, hu1⟩ := h st.idx
  simp only [evalExpr, RollResult.value]
  set u := us st.idx with hu
  set n : ℤ := g1 - g0 + 1 with hn
  rcases le_or_lt 1 n with hn1 | hn0
  · have hnQ : (0 : ℚ) < (n : ℚ) := by exact_mod_cast hn1
    have h1 : 0 ≤ ⌊u * (n : ℚ)⌋ := Int.floor_nonneg.mpr (mul_nonneg hu0 (le_of_lt hnQ))
    have h2 : ⌊u * (n : ℚ)⌋ < n := by
      apply Int.floor_lt.mpr
      calc u * (n : ℚ) < 1 * (n : ℚ) := mul_lt_mul_of_pos_right hu1 hnQ
        _ = (n : ℚ) := one_mul _
    constructor
    · have : min g0 g1 = g0 := min_eq_left (by omega)
      omega
    · have : max g0 g1 = g1 := max_eq_right (by omega)
      omega
  · have hn0' : n ≤ 0 := by omega
    have hnQ : (n : ℚ) ≤ 0 := by exact_mod_cast hn0'
    have h1 : ⌊u * (n : ℚ)⌋ ≤ 0 := by
      apply Int.floor_nonpos
      exact mul_nonpos_of_nonneg_of_nonpos hu0 hnQ
    have h2 : n ≤ ⌊u * (n : ℚ)⌋ := by
      apply Int.le_floor.mpr
      calc (n : ℚ) = 1 * (n : ℚ) := (one_mul _).symm
        _ ≤ u * (n : ℚ) := mul_le_mul_of_nonpos_right (le_of_lt hu1) hnQ
    constructor
    · have : min g0 g1 = g1 := min_eq_right (by omega)
      omega
    · have : max g0 g1 = g0 := max_eq_left (by omega)
      omega

theorem gygax_range_in_bounds_witness :
    Rng.Valid (fun _ => 0) ∧
      (min 5 3 ≤ (evalExpr (fun _ => 0) (.gygaxRange 5 3) ⟨[], 0⟩).1.value ∧
        (evalExpr (fun _ => 0) (.gygaxRange 5 3) ⟨[], 0⟩).1.value ≤ max 5 3) :=
  ⟨fun _ => by norm_num,
    gygax_range_in_bounds 5 3 (fun _ => 0) ⟨[], 0⟩ (fun _ => by norm_num)⟩

theorem rollPlainDice_total_bounds (sides : Nat) (us : Rng)
    (h : Rng.Valid us) (hs : 1 ≤ sides) :
    ∀ (n i : Nat), ∀ d ∈ (rollPlainDice sides us n i).1,
      1 ≤ d.total ∧ d.total ≤ (sides : ℤ) := by
  intro n
  induction n with
  | zero => intro i d hd; simp [rollPlainDice] at hd
  | succ m ih =>
      intro i d hd
      simp only [rollPlainDice, List.mem_cons] at hd
      rcases hd with hd | hd
      · subst hd
        have := rollDie_bounds (sides : ℤ) (us i) (by exact_mod_cast hs)
          (h i).1 (h i).2
        simpa [Die.total] using this
      · exact ih (i + 1) d hd

theorem rollPlainDice_length (sides : Nat) (us : Rng) :
    ∀ (n i : Nat), (rollPlainDice sides us n i).1.length = n := by
  intro n
  induction n with
  | zero => intro i; simp [rollPlainDice]
  | succ m ih => intro i; simp [rollPlainDice, ih]

theorem sum_total_bounds (S : ℤ) :
    ∀ (l : List Die), (∀ d ∈ l, 1 ≤ d.total ∧ d.total ≤ S) →
      (l.length : ℤ) ≤ (l.map Die.total).sum ∧
        (l.map Die.total).sum ≤ (l.length : ℤ) * S := by
  intro l
  induction l with
  | nil => intro _; simp
  | cons a t ih =>
      intro hmem
      have ha := hmem a (List.mem_cons_self a t)
      have ht := ih (fun d hd => hmem d (List.mem_cons_of_mem a hd))
      simp only [List.map_cons, List.sum_cons, List.length_cons]
      push_cast
      constructor
      · linarith [ht.1, ha.1]
      · have expand : ((t.length : ℤ) + 1) * S = (t.length : ℤ) * S + S := by ring
        linarith [ht.2, ha.2]

/-- C3: for all N in [1, 100] and S in [2, 100], the generic roll NdS with
no suffix evaluates to a value between N and N * S inclusive, for every
valid outcome of the underlying draws. -/
theorem generic_roll_value_range (N S : Nat) (us : Rng) (st : EvalSt)
    (hN1 : 1 ≤ N) (hN2 : N ≤ 100) (hS1 : 2 ≤ S) (hS2 : S ≤ 100)
    (h : Rng.Valid us) :
    (N : ℤ) ≤ (evalExpr us (.genericRoll N S false none) st).1.value ∧
    (evalExpr us (.genericRoll N S false none) st).1.value ≤ (N : ℤ) * (S : ℤ) := by
  simp only [evalExpr, Bool.false_eq_true, if_false, RollResult.value, ite_false]
  have hb := rollPlainDice_total_bounds S us h (by omega) N st.idx
  have hlen := rollPlainDice_length S us N st.idx
  have := sum_total_bounds (S : ℤ) (rollPlainDice S us N st.idx).1 hb
  rw [hlen] at this
  exact this

theorem generic_roll_value_range_witness :
    (1 ≤ 2 ∧ 2 ≤ 100 ∧ 2 ≤ 6 ∧ 6 ≤ 100) ∧ Rng.Valid (fun _ => 0) ∧
      ((2 : ℤ) ≤ (evalExpr (fun _ => 0) (.genericRoll 2 6 false none) ⟨[], 0⟩).1.value ∧
        (evalExpr (fun _ => 0) (.genericRoll 2 6 false none) ⟨[], 0⟩).1.value ≤ (2 : ℤ) * 6) :=
  ⟨by norm_num, fun _ => by norm_num,
    generic_roll_value_range 2 6 (fun _ => 0) ⟨[], 0⟩ (by norm_num) (by norm_num)
      (by norm_num) (by norm_num) (fun _ => by norm_num)⟩

/-- Two-statement command of spec scenario 6, as a parse tree. -/
def c2Stmts : List Expr :=
  [ .assign "hp" (.addSub true (.genericRoll 2 6 false none) (.intTerm 10)),
    .mulDivMod 0 (.varTerm "hp") (.intTerm 2) ]

/-- Draw stream that injects die values 3 then 4 on d6 rolls. -/
def c2Rng : Rng := fun n => if n = 0 then 1/3 else if n = 1 then 1/2 else 0

/-- C2 counterexample: with injected dice 3 and 4, the two-statement command
does not evaluate to 34; visitCommandElement sums the statement values
(17 + 34) and returns 51. -/
theorem evaluate_two_statement_value_ne_34 :
    (visitCommandElement c2Rng c2Stmts).value = 51 ∧
      (visitCommandElement c2Rng c2Stmts).value ≠ 34 := by
  have h : (visitCommandElement c2Rng c2Stmts).value = 51 := by
    norm_num [visitCommandElement, evalStatements, evalExpr, c2Stmts, c2Rng,
      rollPlainDice, rollDie, varGet, RollResult.value, Die.total]
  exact ⟨h, by omega⟩

/-- C2 amended: the assignment binds hp to 17 and is transparent (the first
statement's value is 17), the variable is visible in the second statement
(whose value is 34), and the command's value is the sum of the two
statement values, 17 + 34 = 51. -/
theorem evaluate_two_statement_value_51 :
    ((evalStatements c2Rng c2Stmts ⟨[], 0⟩).1.map RollResult.value = [17, 34]) ∧
      varGet (evalStatements c2Rng c2Stmts ⟨[], 0⟩).2.vars "hp" = 17 ∧
      (visitCommandElement c2Rng c2Stmts).value = 51 := by
  refine ⟨?_, ?_, ?_⟩ <;>
    norm_num [visitCommandElement, evalStatements, evalExpr, c2Stmts, c2Rng,
      rollPlainDice, rollDie, varGet, RollResult.value, Die.total]

def RollResult.droppedDiceOf : RollResult → List Die
  | .generic _ _ _ dd _ _ _ _ => dd
  | _ => []

def RollResult.usedDieOf : RollResult → Option UsedDie
  | .savageWild _ _ _ u _ _ _ _ => some u
  | _ => none

theorem filter_total_orderedInsert (a : Die) (t : ℤ) :
    ∀ l : List Die,
      (l.orderedInsert (fun x y => y.total ≤ x.total) a).filter
          (fun d => decide (d.total = t))
        = if a.total = t then
            a :: l.filter (fun d => decide (d.total = t))
          else l.filter (fun d => decide (d.total = t)) := by
  intro l
  induction l with
  | nil =>
      simp only [List.orderedInsert_nil, List.filter]
      by_cases h : a.total = t <;> simp [h]
  | cons b l ih =>
      simp only [List.orderedInsert]
      by_cases hr : b.total ≤ a.total
      · simp only [hr, if_true, List.filter]
        by_cases ha : a.total = t <;> simp [ha]
      · simp only [hr, if_false, List.filter_cons, ih]
        by_cases ha : a.total = t
        · have hb : ¬ b.total = t := by omega
          simp [ha, hb]
        · simp [ha]

theorem sortByTotalDesc_filter_total (dice : List Die) (t : ℤ) :
    (sortByTotalDesc dice).filter (fun d => decide (d.total = t))
      = dice.filter (fun d => decide (d.total = t)) := by
  unfold sortByTotalDesc
  induction dice with
  | nil => simp
  | cons a l ih =>
      simp only [List.insertionSort, filter_total_orderedInsert, List.filter_cons]
      by_cases ha : a.total = t <;> simp [ha, ih]

theorem map_total_sortByTotalDesc (dice : List Die) :
    (sortByTotalDesc dice).map Die.total
      = (dice.map Die.total).insertionSort (fun a b => b ≤ a) := by
  unfold sortByTotalDesc
  exact List.map_insertionSort _ _ Die.total dice (fun a _ b _ => Iff.rfl)

theorem sorted_desc_insertionSort (l : List ℤ) :
    (l.insertionSort (fun a b => b ≤ a)).Sorted (fun a b => b ≤ a) := by
  apply List.sorted_insertionSort

/-- C4: for a keep-highest roll (op k with keep count n) on any fixed list
of rolled dice, the value is the sum of the n largest die totals (the first
n entries of the descending-sorted totals, which are a sorted permutation of
the rolled totals); the remaining sorted dice become droppedDice; and the
sort is stable on original roll order: restricted to any fixed total, the
sorted dice list coincides with the original roll order (no secondary key). -/
theorem keep_highest_sum_and_stability (dice : List Die) (n : Nat) :
    ((applyGenericSuffix dice (.rollAndKeep .k (some n))).value
        = ((((dice.map Die.total).insertionSort (fun a b => b ≤ a)).take n).sum)) ∧
    ((applyGenericSuffix dice (.rollAndKeep .k (some n))).droppedDiceOf
        = (sortByTotalDesc dice).drop n) ∧
    ((dice.map Die.total).insertionSort (fun a b => b ≤ a)).Sorted (fun a b => b ≤ a) ∧
    ((dice.map Die.total).insertionSort (fun a b => b ≤ a)).Perm (dice.map Die.total) ∧
    (∀ t : ℤ, (sortByTotalDesc dice).filter (fun d => decide (d.total = t))
        = dice.filter (fun d => decide (d.total = t))) := by
  refine ⟨?_, ?_, ?_, ?_, ?_⟩
  · simp only [applyGenericSuffix, RollResult.value, Option.getD]
    rw [← map_total_sortByTotalDesc, List.map_take]
  · simp [applyGenericSuffix, RollResult.droppedDiceOf]
  · exact sorted_desc_insertionSort (dice.map Die.total)
  · exact List.perm_insertionSort _ _
  · exact sortByTotalDesc_filter_total dice

/-- Result record of rollWithWildDie (savageWorldsDice.js). -/
structure WildRollOutcome : Type where
  total : ℤ
  traitRoll : Die
  wildRoll : Die
  modifier : ℤ
  usedDie : UsedDie
  traitTotal : ℤ
  wildTotal : ℤ

/-- rollWithWildDie from savageWorldsDice.js: roll an acing trait die and an
acing wild die (budget 100 each), add the modifier to both totals, keep the
higher total; usedDie is trait exactly when traitTotal >= wildTotal. -/
def rollWithWildDie (traitDie : ℤ) (modifier : ℤ) (wildDie : ℤ) (us : Rng)
    (i : Nat) : WildRollOutcome × Nat :=
  let trait := rollAcingDie traitDie 100 us i
  let wild := rollAcingDie wildDie 100 us trait.2
  let traitTotal := trait.1.total + modifier
  let wildTotal := wild.1.total + modifier
  (⟨max traitTotal wildTotal, trait.1, wild.1, modifier,
      if wildTotal ≤ traitTotal then .trait else .wild, traitTotal, wildTotal⟩,
    wild.2)

/-- Single-roll branch (count = 1) of visitSavageWorldsRollExpr in
r2Evaluator.js: both dice ace with budget 100, the value is the max of the
two chain totals, usedDie is trait on ties, and raises are always computed
against the defaulted target number 4 and raise interval 4. -/
def visitSavageWorldsSingle (traitDieSize wildDieSize : ℤ)
    (targetNumber raiseInterval : Option ℤ) (us : Rng) (i : Nat) :
    RollResult × Nat :=
  let trait := rollAcingDie traitDieSize 100 us i
  let wild := rollAcingDie wildDieSize 100 us trait.2
  let usedDie : UsedDie := if wild.1.total ≤ trait.1.total then .trait else .wild
  let baseValue := max trait.1.total wild.1.total
  let effTN := targetNumber.getD 4
  let effRI := raiseInterval.getD 4
  let margin := baseValue - effTN
  let success := 0 ≤ margin
  let raiseCount := if success then Int.fdiv margin effRI else 0
  (.savageWild baseValue trait.1 wild.1 usedDie 0 (some effTN) (some effRI)
    (some ⟨decide success, raiseCount, margin⟩), wild.2)

theorem rollAcingDie_total_eq_chain_sum (sides : ℤ) (maxAces : Nat) (us : Rng)
    (i : Nat) :
    (rollAcingDie sides maxAces us i).1.total
      = (rollAcingDie sides maxAces us i).1.chainValues.sum := by
  unfold rollAcingDie
  exact (buildNestedRoll_inv sides us maxAces (rollDie sides (us i)) (i + 1)).total_eq

/-- C5: for every Savage Worlds roll, the result value is the maximum of the
trait chain total and the wild chain total plus the modifier, and the trait
die is the used die exactly when its total is at least the wild total (ties
favor trait).  Stated for rollWithWildDie (savageWorldsDice.js) and for the
single-roll branch of visitSavageWorldsRollExpr (r2Evaluator.js, zero
modifier). -/
theorem savage_wild_max_and_tie_trait (traitSides wildSides modifier : ℤ)
    (tn ri : Option ℤ) (us : Rng) (i : Nat) :
    ((rollWithWildDie traitSides modifier wildSides us i).1.total
        = max ((rollWithWildDie traitSides modifier wildSides us i).1.traitRoll.chainValues.sum)
            ((rollWithWildDie traitSides modifier wildSides us i).1.wildRoll.chainValues.sum)
          + modifier) ∧
    ((rollWithWildDie traitSides modifier wildSides us i).1.usedDie = UsedDie.trait
      ↔ (rollWithWildDie traitSides modifier wildSides us i).1.wildRoll.total
          ≤ (rollWithWildDie traitSides modifier wildSides us i).1.traitRoll.total) ∧
    ((visitSavageWorldsSingle traitSides wildSides tn ri us i).1.value
        = max ((rollAcingDie traitSides 100 us i).1.chainValues.sum)
            ((rollAcingDie wildSides 100 us (rollAcingDie traitSides 100 us i).2).1.chainValues.sum)) ∧
    ((visitSavageWorldsSingle traitSides wildSides tn ri us i).1.usedDieOf = some UsedDie.trait
      ↔ (rollAcingDie wildSides 100 us (rollAcingDie traitSides 100 us i).2).1.total
          ≤ (rollAcingDie traitSides 100 us i).1.total) := by
  refine ⟨?_, ?_, ?_, ?_⟩
  · simp only [rollWithWildDie, ← rollAcingDie_total_eq_chain_sum]
    rw [max_add_add_right]
  · simp only [rollWithWildDie]
    by_cases h : (rollAcingDie wildSides 100 us (rollAcingDie traitSides 100 us i).2).1.total
        ≤ (rollAcingDie traitSides 100 us i).1.total
    · simp [h]
    · have h2 : ¬ ((rollAcingDie wildSides 100 us (rollAcingDie traitSides 100 us i).2).1.total
          + modifier ≤ (rollAcingDie traitSides 100 us i).1.total + modifier) := by omega
      simp [h, h2]
  · simp only [visitSavageWorldsSingle, RollResult.value,
      ← rollAcingDie_total_eq_chain_sum]
  · simp only [visitSavageWorldsSingle, RollResult.usedDieOf]
    by_cases h : (rollAcingDie wildSides 100 us (rollAcingDie traitSides 100 us i).2).1.total
        ≤ (rollAcingDie traitSides 100 us i).1.total
    · simp [h]
    · simp [h]

/-- Every character of the list is an ASCII digit. -/
def AllDigit (l : List Char) : Prop := ∀ c ∈ l, c.isDigit = true

instance (l : List Char) : Decidable (AllDigit l) :=
  inferInstanceAs (Decidable (∀ c ∈ l, c.isDigit = true))

/-- Condition on the head character of a list (vacuous for the empty list). -/
def HeadOk (p : Char → Prop) : List Char → Prop
  | [] => True
  | c :: _ => p c

/-- Match of the anchored repeat regex of normalizeExpression, one or more
digits followed by x or X: returns the matched prefix and the remainder.
The greedy digit run never needs backtracking because shortening it would
put a digit where x/X is required. -/
def matchRepeat (s : List Char) : Option (List Char × List Char) :=
  let ds := s.takeWhile Char.isDigit
  match s.dropWhile Char.isDigit with
  | c :: tail =>
      if (c = 'x' ∨ c = 'X') ∧ ds ≠ [] then some (ds ++ [c], tail) else none
  | [] => none

/-- Match of the anchored Savage Worlds base regex: optional digits, s or S,
one or more digits, then an optional group of w or W followed by one or more
digits; returns the base and the remainder. -/
def matchSwBase (s : List Char) : Option (List Char × List Char) :=
  let d1 := s.takeWhile Char.isDigit
  match s.dropWhile Char.isDigit with
  | sc :: t1 =>
      if sc = 's' ∨ sc = 'S' then
        let d2 := t1.takeWhile Char.isDigit
        if d2 = [] then none
        else
          match t1.dropWhile Char.isDigit with
          | wc :: t3 =>
              if wc = 'w' ∨ wc = 'W' then
                let d3 := t3.takeWhile Char.isDigit
                if d3 = [] then some (d1 ++ sc :: d2, wc :: t3)
                else some (d1 ++ sc :: d2 ++ wc :: d3, t3.dropWhile Char.isDigit)
              else some (d1 ++ sc :: d2, wc :: t3)
          | [] => some (d1 ++ sc :: d2, [])
      else none
  | [] => none

/-- Greedy consumption of the optional percent sign of the generic base
regex: appends it to the base when the tail starts with it. -/
def pctSplit (base tail : List Char) : List Char × List Char :=
  match tail with
  | '%' :: t3 => (base ++ ['%'], t3)
  | t2 => (base, t2)

/-- Greedy consumption of the optional exclamation group of the generic
regex: strips it and reports whether it was present. -/
def exclSplit (tail : List Char) : Bool × List Char :=
  match tail with
  | '!' :: t4 => (true, t4)
  | t3 => (false, t3)

/-- Match of the anchored generic base regex: optional digits, d or D, one
or more digits, an optional percent sign, then a separate optional
exclamation group; returns the base, the explosion flag and the remainder. -/
def matchGenBase (s : List Char) : Option (List Char × Bool × List Char) :=
  let d1 := s.takeWhile Char.isDigit
  match s.dropWhile Char.isDigit with
  | dc :: t1 =>
      if dc = 'd' ∨ dc = 'D' then
        let d2 := t1.takeWhile Char.isDigit
        if d2 = [] then none
        else
          let bp := pctSplit (d1 ++ dc :: d2) (t1.dropWhile Char.isDigit)
          let ep := exclSplit bp.2
          some (bp.1, ep.1, ep.2)
      else none
  | [] => none

/-- Leftmost unanchored match of tag (one of two tag characters) followed by
one or more digits; returns the captured digit run.  A tag character not
followed by a digit is skipped, as regex scanning does. -/
def findTagNum (a b : Char) : List Char → Option (List Char)
  | [] => none
  | c :: rest =>
      if c = a ∨ c = b then
        if rest.takeWhile Char.isDigit = [] then findTagNum a b rest
        else some (rest.takeWhile Char.isDigit)
      else findTagNum a b rest

/-- Leftmost unanchored match of a sign followed by one or more digits;
returns the sign and the captured digit run. -/
def findSigned : List Char → Option (Char × List Char)
  | [] => none
  | c :: rest =>
      if c = '+' ∨ c = '-' then
        if rest.takeWhile Char.isDigit = [] then findSigned rest
        else some (c, rest.takeWhile Char.isDigit)
      else findSigned rest

/-- Leftmost unanchored match of the keep regex, alternatives in order:
k with an optional l, or adv, or dis, all case-insensitive, followed by an
optional digit run; returns the matched operation characters as written and
the digit run. -/
def findKeep : List Char → Option (List Char × List Char)
  | [] => none
  | c1 :: rest =>
      if c1 = 'k' ∨ c1 = 'K' then
        match rest with
        | c2 :: rest2 =>
            if c2 = 'l' ∨ c2 = 'L' then some ([c1, c2], rest2.takeWhile Char.isDigit)
            else some ([c1], rest.takeWhile Char.isDigit)
        | [] => some ([c1], [])
      else
        match rest with
        | c2 :: c3 :: rest3 =>
            if ((c1 = 'a' ∨ c1 = 'A') ∧ (c2 = 'd' ∨ c2 = 'D') ∧ (c3 = 'v' ∨ c3 = 'V'))
                ∨ ((c1 = 'd' ∨ c1 = 'D') ∧ (c2 = 'i' ∨ c2 = 'I') ∧ (c3 = 's' ∨ c3 = 'S')) then
              some ([c1, c2, c3], rest3.takeWhile Char.isDigit)
            else findKeep rest
        | _ => findKeep rest

/-- Lowercasing of the matched keep operation (the toLowerCase call of the
source). -/
def lowerList (l : List Char) : List Char := l.map Char.toLower

def emitTag (tag : Char) : Option (List Char) → List Char
  | some ds => tag :: ds
  | none => []

def emitSigned : Option (Char × List Char) → List Char
  | some (sc, ds) => sc :: ds
  | none => []

def emitKeep : Option (List Char × List Char) → List Char
  | some (op, ds) => lowerList op ++ ds
  | none => []

/-- Canonical re-emission of the Savage Worlds suffixes found in rest:
target, then raise, then signed modifier. -/
def swSuffixCanonical (rest : List Char) : List Char :=
  emitTag 't' (findTagNum 't' 'T' rest) ++ emitTag 'r' (findTagNum 'r' 'R' rest)
    ++ emitSigned (findSigned rest)

/-- Canonical re-emission of the generic suffixes found in rest: keep, then
target, then raise, then signed modifier. -/
def genSuffixCanonical (rest : List Char) : List Char :=
  emitKeep (findKeep rest) ++ emitTag 't' (findTagNum 't' 'T' rest)
    ++ emitTag 'r' (findTagNum 'r' 'R' rest) ++ emitSigned (findSigned rest)

/-- normalizeExpression from diceCommands.js, on character lists: strip the
repeat part, then try the Savage Worlds shape, then the generic shape,
re-emitting the suffixes in canonical order; anything else passes through
unchanged (the original string, repeat part included). -/
def normalizeChars (s : List Char) : List Char :=
  let rp := match matchRepeat s with
    | some pr => pr
    | none => ([], s)
  match matchSwBase rp.2 with
  | some (base, rest) => rp.1 ++ base ++ swSuffixCanonical rest
  | none =>
      match matchGenBase rp.2 with
      | some (base, excl, rest) =>
          rp.1 ++ base ++ (if excl then ['!'] else []) ++ genSuffixCanonical rest
      | none => s

def normalizeExpression (s : String) : String := String.mk (normalizeChars s.data)

/-- A string is recognized when, after stripping the repeat part, the Savage
Worlds base or the generic base matches. -/
def Recognized (s : List Char) : Prop :=
  let roll := match matchRepeat s with
    | some pr => pr.2
    | none => s
  (matchSwBase roll).isSome ∨ (matchGenBase roll).isSome

instance (s : List Char) : Decidable (Recognized s) := by
  unfold Recognized
  infer_instance

/-- C7 counterexample: the set of suffix tokens with explosion, keep is not
order-tolerant: the explosion mark is only recognized directly after the die
base, so 3d6k2! loses its explosion mark while 3d6!k2 keeps it, and the two
permutations of the same token set normalize to different strings. -/
theorem normalize_explosion_permutation_cex :
    normalizeExpression "3d6!k2" = "3d6!k2" ∧
      normalizeExpression "3d6k2!" = "3d6k2" ∧
      normalizeExpression "3d6k2!" ≠ normalizeExpression "3d6!k2" := by
  refine ⟨by decide, by decide, by decide⟩

/-- Well-formedness of a matched keep operation: k or K, optionally followed
by l or L; or adv; or dis, case-insensitively. -/
def KeepOpWF (op : List Char) : Prop :=
  (∃ c, op = [c] ∧ (c = 'k' ∨ c = 'K')) ∨
  (∃ c1 c2, op = [c1, c2] ∧ (c1 = 'k' ∨ c1 = 'K') ∧ (c2 = 'l' ∨ c2 = 'L')) ∨
  (∃ c1 c2 c3, op = [c1, c2, c3] ∧ (c1 = 'a' ∨ c1 = 'A') ∧ (c2 = 'd' ∨ c2 = 'D')
      ∧ (c3 = 'v' ∨ c3 = 'V')) ∨
  (∃ c1 c2 c3, op = [c1, c2, c3] ∧ (c1 = 'd' ∨ c1 = 'D') ∧ (c2 = 'i' ∨ c2 = 'I')
      ∧ (c3 = 's' ∨ c3 = 'S'))

/-- Suffix tokens a user can write after a die base, in any order: target
number, raise step, signed numeric modifier, keep operation. -/
inductive STok : Type where
  | target (tc : Char) (ds : List Char)
  | raiseT (rc : Char) (ds : List Char)
  | modTok (sc : Char) (ds : List Char)
  | keep (op : List Char) (ds : List Char)
deriving DecidableEq

def STok.render : STok → List Char
  | .target tc ds => tc :: ds
  | .raiseT rc ds => rc :: ds
  | .modTok sc ds => sc :: ds
  | .keep op ds => op ++ ds

def STok.WF : STok → Prop
  | .target tc ds => (tc = 't' ∨ tc = 'T') ∧ ds ≠ [] ∧ AllDigit ds
  | .raiseT rc ds => (rc = 'r' ∨ rc = 'R') ∧ ds ≠ [] ∧ AllDigit ds
  | .modTok sc ds => (sc = '+' ∨ sc = '-') ∧ ds ≠ [] ∧ AllDigit ds
  | .keep op ds => KeepOpWF op ∧ AllDigit ds

def STok.isTarget : STok → Bool
  | .target _ _ => true
  | _ => false

def STok.isRaise : STok → Bool
  | .raiseT _ _ => true
  | _ => false

def STok.isMod : STok → Bool
  | .modTok _ _ => true
  | _ => false

def STok.isKeep : STok → Bool
  | .keep _ _ => true
  | _ => false

def STok.kind : STok → Nat
  | .target _ _ => 0
  | .raiseT _ _ => 1
  | .modTok _ _ => 2
  | .keep _ _ => 3

def STok.payload : STok → List Char
  | .target _ ds => ds
  | .raiseT _ ds => ds
  | .modTok _ ds => ds
  | .keep _ ds => ds

def STok.sigPayload : STok → Char × List Char
  | .modTok sc ds => (sc, ds)
  | .target tc ds => (tc, ds)
  | .raiseT rc ds => (rc, ds)
  | .keep _ ds => (' ', ds)

def STok.opPayload : STok → List Char × List Char
  | .keep op ds => (op, ds)
  | .target tc ds => ([tc], ds)
  | .raiseT rc ds => ([rc], ds)
  | .modTok sc ds => ([sc], ds)

def renderToks (l : List STok) : List Char := (l.map STok.render).flatten

def renderRp : Option (List Char × Char) → List Char
  | some (ds, xc) => ds ++ [xc]
  | none => []

def RpWF : Option (List Char × Char) → Prop
  | some (ds, xc) => ds ≠ [] ∧ AllDigit ds ∧ (xc = 'x' ∨ xc = 'X')
  | none => True

def renderW : Option (Char × List Char) → List Char
  | some (wc, d3) => wc :: d3
  | none => []

def WWF : Option (Char × List Char) → Prop
  | some (wc, d3) => (wc = 'w' ∨ wc = 'W') ∧ d3 ≠ [] ∧ AllDigit d3
  | none => True

/-- A Savage Worlds shape with its suffix tokens laid out in the order of
the token list l. -/
def swBuild (rp : Option (List Char × Char)) (d1 : List Char) (sc : Char)
    (d2 : List Char) (w : Option (Char × List Char)) (l : List STok) : List Char :=
  renderRp rp ++ d1 ++ sc :: d2 ++ renderW w ++ renderToks l

/-- A generic die-roll shape with its suffix tokens laid out in the order of
the token list l; the explosion mark, when present, sits directly after the
base as the grammar requires. -/
def genBuild (rp : Option (List Char × Char)) (d1 : List Char) (dc : Char)
    (d2 : List Char) (pct excl : Bool) (l : List STok) : List Char :=
  renderRp rp ++ d1 ++ dc :: d2 ++ (if pct then ['%'] else [])
    ++ (if excl then ['!'] else []) ++ renderToks l

theorem digit_ne_of {c : Char} (x : Char) (hc : c.isDigit = true)
    (hx : x.isDigit = false) : c ≠ x := by
  intro h
  rw [h, hx] at hc
  cases hc

theorem span_digit_prefix (l : List Char)
    (hl : HeadOk (fun c => c.isDigit = false) l) :
    ∀ ds : List Char, AllDigit ds →
      (ds ++ l).takeWhile Char.isDigit = ds ∧
        (ds ++ l).dropWhile Char.isDigit = l := by
  intro ds
  induction ds with
  | nil =>
      intro _
      simp only [List.nil_append]
      cases l with
      | nil => simp
      | cons c t =>
          simp only [HeadOk] at hl
          simp [List.takeWhile_cons, List.dropWhile_cons, hl]
  | cons d ds ih =>
      intro hall
      have hd : d.isDigit = true := hall d (List.mem_cons_self d ds)
      have hrest : AllDigit ds := fun c hc => hall c (List.mem_cons_of_mem d hc)
      have := ih hrest
      simp only [List.cons_append, List.takeWhile_cons, List.dropWhile_cons, hd,
        if_true, this.1, this.2]
      simp

theorem findTagNum_nil (a b : Char) : findTagNum a b [] = none := rfl

theorem findTagNum_cons_skip (a b c : Char) (m : List Char)
    (hc : c ≠ a ∧ c ≠ b) : findTagNum a b (c :: m) = findTagNum a b m := by
  simp only [findTagNum]
  rw [if_neg (by tauto)]

theorem findTagNum_append (a b : Char) (l2 : List Char) :
    ∀ l1 : List Char, (∀ c ∈ l1, c ≠ a ∧ c ≠ b) →
      findTagNum a b (l1 ++ l2) = findTagNum a b l2 := by
  intro l1
  induction l1 with
  | nil => intro _; simp
  | cons c t ih =>
      intro h
      rw [List.cons_append,
        findTagNum_cons_skip a b c _ (h c (List.mem_cons_self c t))]
      exact ih (fun x hx => h x (List.mem_cons_of_mem c hx))

theorem findTagNum_none (a b : Char) (l : List Char)
    (h : ∀ c ∈ l, c ≠ a ∧ c ≠ b) : findTagNum a b l = none := by
  have := findTagNum_append a b [] l h
  simpa using this

theorem findTagNum_hit (a b c : Char) (ds l : List Char) (hc : c = a ∨ c = b)
    (hds : AllDigit ds) (hne : ds ≠ [])
    (hl : HeadOk (fun x => x.isDigit = false) l) :
    findTagNum a b (c :: (ds ++ l)) = some ds := by
  have hspan := span_digit_prefix l hl ds hds
  simp only [findTagNum]
  rw [if_pos hc, hspan.1, if_neg hne]

theorem findSigned_nil : findSigned [] = none := rfl

theorem findSigned_cons_skip (c : Char) (m : List Char)
    (hc : c ≠ '+' ∧ c ≠ '-') : findSigned (c :: m) = findSigned m := by
  simp only [findSigned]
  rw [if_neg (by tauto)]

theorem findSigned_append (l2 : List Char) :
    ∀ l1 : List Char, (∀ c ∈ l1, c ≠ '+' ∧ c ≠ '-') →
      findSigned (l1 ++ l2) = findSigned l2 := by
  intro l1
  induction l1 with
  | nil => intro _; simp
  | cons c t ih =>
      intro h
      rw [List.cons_append,
        findSigned_cons_skip c _ (h c (List.mem_cons_self c t))]
      exact ih (fun x hx => h x (List.mem_cons_of_mem c hx))

theorem findSigned_none (l : List Char)
    (h : ∀ c ∈ l, c ≠ '+' ∧ c ≠ '-') : findSigned l = none := by
  have := findSigned_append [] l h
  simpa using this

theorem findSigned_hit (c : Char) (ds l : List Char) (hc : c = '+' ∨ c = '-')
    (hds : AllDigit ds) (hne : ds ≠ [])
    (hl : HeadOk (fun x => x.isDigit = false) l) :
    findSigned (c :: (ds ++ l)) = some (c, ds) := by
  have hspan := span_digit_prefix l hl ds hds
  simp only [findSigned]
  rw [if_pos hc, hspan.1, if_neg hne]

theorem headOk_nil (p : Char → Prop) : HeadOk p [] := trivial

theorem headOk_cons {p : Char → Prop} {c : Char} {t : List Char}
    (h : p c) : HeadOk p (c :: t) := h

theorem headOk_cons_elim {p : Char → Prop} {c : Char} {t : List Char}
    (h : HeadOk p (c :: t)) : p c := h

theorem headOk_mono {p q : Char → Prop} (h : ∀ c, p c → q c) :
    ∀ l : List Char, HeadOk p l → HeadOk q l
  | [], _ => trivial
  | c :: _, hp => h c hp

/-- Characters that can never start a keep-operation match. -/
def KeepSafeChar (c : Char) : Prop :=
  c ≠ 'k' ∧ c ≠ 'K' ∧ c ≠ 'a' ∧ c ≠ 'A' ∧ c ≠ 'd' ∧ c ≠ 'D'

theorem findKeep_cons_skip (c1 : Char) (m : List Char) (hc : KeepSafeChar c1) :
    findKeep (c1 :: m) = findKeep m := by
  obtain ⟨h1, h2, h3, h4, h5, h6⟩ := hc
  match m with
  | [] => simp [findKeep, h1, h2]
  | [c2] => simp [findKeep, h1, h2]
  | c2 :: c3 :: m3 => simp [findKeep, h1, h2, h3, h4, h5, h6]

theorem findKeep_append (l2 : List Char) :
    ∀ l1 : List Char, (∀ c ∈ l1, KeepSafeChar c) →
      findKeep (l1 ++ l2) = findKeep l2 := by
  intro l1
  induction l1 with
  | nil => intro _; simp
  | cons c t ih =>
      intro h
      rw [List.cons_append, findKeep_cons_skip c _ (h c (List.mem_cons_self c t))]
      exact ih (fun x hx => h x (List.mem_cons_of_mem c hx))

theorem findKeep_none (l : List Char) (h : ∀ c ∈ l, KeepSafeChar c) :
    findKeep l = none := by
  have := findKeep_append [] l h
  simpa using this

theorem findKeep_k (c : Char) (rest : List Char) (hc : c = 'k' ∨ c = 'K')
    (hrest : HeadOk (fun x => x ≠ 'l' ∧ x ≠ 'L') rest) :
    findKeep (c :: rest) = some ([c], rest.takeWhile Char.isDigit) := by
  cases rest with
  | nil =>
      simp only [findKeep]
      rw [if_pos hc]
      rfl
  | cons c2 t =>
      have h2 := headOk_cons_elim hrest
      simp only [findKeep]
      rw [if_pos hc, if_neg (by tauto)]

theorem findKeep_kl (c1 c2 : Char) (rest : List Char)
    (hc1 : c1 = 'k' ∨ c1 = 'K') (hc2 : c2 = 'l' ∨ c2 = 'L') :
    findKeep (c1 :: c2 :: rest) = some ([c1, c2], rest.takeWhile Char.isDigit) := by
  simp only [findKeep]
  rw [if_pos hc1, if_pos hc2]

theorem findKeep_word (c1 c2 c3 : Char) (rest : List Char)
    (hnk : ¬(c1 = 'k' ∨ c1 = 'K'))
    (hcond : ((c1 = 'a' ∨ c1 = 'A') ∧ (c2 = 'd' ∨ c2 = 'D') ∧ (c3 = 'v' ∨ c3 = 'V'))
      ∨ ((c1 = 'd' ∨ c1 = 'D') ∧ (c2 = 'i' ∨ c2 = 'I') ∧ (c3 = 's' ∨ c3 = 'S'))) :
    findKeep (c1 :: c2 :: c3 :: rest)
      = some ([c1, c2, c3], rest.takeWhile Char.isDigit) := by
  simp only [findKeep]
  rw [if_neg hnk, if_pos hcond]

theorem findKeep_hit (op ds l : List Char) (hop : KeepOpWF op) (hds : AllDigit ds)
    (hl : HeadOk (fun c => c.isDigit = false ∧ c ≠ 'l' ∧ c ≠ 'L') l) :
    findKeep (op ++ (ds ++ l)) = some (op, ds) := by
  have hldig : HeadOk (fun c => c.isDigit = false) l :=
    headOk_mono (fun c hc => hc.1) l hl
  have hspan := span_digit_prefix l hldig ds hds
  rcases hop with ⟨c, rfl, hc⟩ | ⟨c1, c2, rfl, hc1, hc2⟩ |
    ⟨c1, c2, c3, rfl, hc1, hc2, hc3⟩ | ⟨c1, c2, c3, rfl, hc1, hc2, hc3⟩
  · rw [List.cons_append, List.nil_append, findKeep_k c _ hc, hspan.1]
    cases ds with
    | nil =>
        simp only [List.nil_append]
        exact headOk_mono (fun x hx => ⟨hx.2.1, hx.2.2⟩) l hl
    | cons d ds2 =>
        have hd : d.isDigit = true := hds d (List.mem_cons_self d ds2)
        exact headOk_cons ⟨digit_ne_of 'l' hd (by decide),
          digit_ne_of 'L' hd (by decide)⟩
  · rw [List.cons_append, List.cons_append, List.nil_append,
      findKeep_kl c1 c2 _ hc1 hc2, hspan.1]
  · rw [List.cons_append, List.cons_append, List.cons_append, List.nil_append,
      findKeep_word c1 c2 c3 _ (by rcases hc1 with rfl | rfl <;> decide)
        (Or.inl ⟨hc1, hc2, hc3⟩), hspan.1]
  · rw [List.cons_append, List.cons_append, List.cons_append, List.nil_append,
      findKeep_word c1 c2 c3 _ (by rcases hc1 with rfl | rfl <;> decide)
        (Or.inr ⟨hc1, hc2, hc3⟩), hspan.1]

theorem keepOp_chars (op : List Char) (h : KeepOpWF op) :
    ∀ c ∈ op, c = 'k' ∨ c = 'K' ∨ c = 'l' ∨ c = 'L' ∨ c = 'a' ∨ c = 'A' ∨
      c = 'd' ∨ c = 'D' ∨ c = 'v' ∨ c = 'V' ∨ c = 'i' ∨ c = 'I' ∨
      c = 's' ∨ c = 'S' := by
  rcases h with ⟨c0, rfl, hc⟩ | ⟨c1, c2, rfl, h1, h2⟩ |
    ⟨c1, c2, c3, rfl, h1, h2, h3⟩ | ⟨c1, c2, c3, rfl, h1, h2, h3⟩ <;>
      intro c hmem <;> simp only [List.mem_cons, List.not_mem_nil, or_false] at hmem
  · subst hmem; tauto
  · rcases hmem with rfl | rfl <;> tauto
  · rcases hmem with rfl | rfl | rfl <;> tauto
  · rcases hmem with rfl | rfl | rfl <;> tauto

theorem render_no_t (tok : STok) (hwf : tok.WF) (hnt : tok.isTarget = false) :
    ∀ c ∈ tok.render, c ≠ 't' ∧ c ≠ 'T' := by
  cases tok with
  | target tc ds => simp [STok.isTarget] at hnt
  | raiseT rc ds =>
      intro c hc
      simp only [STok.render, List.mem_cons] at hc
      rcases hc with rfl | hc
      · rcases hwf.1 with rfl | rfl <;> exact ⟨by decide, by decide⟩
      · have hd := hwf.2.2 c hc
        exact ⟨digit_ne_of 't' hd (by decide), digit_ne_of 'T' hd (by decide)⟩
  | modTok sc ds =>
      intro c hc
      simp only [STok.render, List.mem_cons] at hc
      rcases hc with rfl | hc
      · rcases hwf.1 with rfl | rfl <;> exact ⟨by decide, by decide⟩
      · have hd := hwf.2.2 c hc
        exact ⟨digit_ne_of 't' hd (by decide), digit_ne_of 'T' hd (by decide)⟩
  | keep op ds =>
      intro c hc
      simp only [STok.render, List.mem_append] at hc
      rcases hc with hc | hc
      · rcases keepOp_chars op hwf.1 c hc with
          rfl | rfl | rfl | rfl | rfl | rfl | rfl | rfl | rfl | rfl | rfl | rfl | rfl | rfl <;>
          exact ⟨by decide, by decide⟩
      · have hd := hwf.2 c hc
        exact ⟨digit_ne_of 't' hd (by decide), digit_ne_of 'T' hd (by decide)⟩

theorem render_no_r (tok : STok) (hwf : tok.WF) (hnt : tok.isRaise = false) :
    ∀ c ∈ tok.render, c ≠ 'r' ∧ c ≠ 'R' := by
  cases tok with
  | raiseT rc ds => simp [STok.isRaise] at hnt
  | target tc ds =>
      intro c hc
      simp only [STok.render, List.mem_cons] at hc
      rcases hc with rfl | hc
      · rcases hwf.1 with rfl | rfl <;> exact ⟨by decide, by decide⟩
      · have hd := hwf.2.2 c hc
        exact ⟨digit_ne_of 'r' hd (by decide), digit_ne_of 'R' hd (by decide)⟩
  | modTok sc ds =>
      intro c hc
      simp only [STok.render, List.mem_cons] at hc
      rcases hc with rfl | hc
      · rcases hwf.1 with rfl | rfl <;> exact ⟨by decide, by decide⟩
      · have hd := hwf.2.2 c hc
        exact ⟨digit_ne_of 'r' hd (by decide), digit_ne_of 'R' hd (by decide)⟩
  | keep op ds =>
      intro c hc
      simp only [STok.render, List.mem_append] at hc
      rcases hc with hc | hc
      · rcases keepOp_chars op hwf.1 c hc with
          rfl | rfl | rfl | rfl | rfl | rfl | rfl | rfl | rfl | rfl | rfl | rfl | rfl | rfl <;>
          exact ⟨by decide, by decide⟩
      · have hd := hwf.2 c hc
        exact ⟨digit_ne_of 'r' hd (by decide), digit_ne_of 'R' hd (by decide)⟩

theorem render_no_sign (tok : STok) (hwf : tok.WF) (hnt : tok.isMod = false) :
    ∀ c ∈ tok.render, c ≠ '+' ∧ c ≠ '-' := by
  cases tok with
  | modTok sc ds => simp [STok.isMod] at hnt
  | target tc ds =>
      intro c hc
      simp only [STok.render, List.mem_cons] at hc
      rcases hc with rfl | hc
      · rcases hwf.1 with rfl | rfl <;> exact ⟨by decide, by decide⟩
      · have hd := hwf.2.2 c hc
        exact ⟨digit_ne_of '+' hd (by decide), digit_ne_of '-' hd (by decide)⟩
  | raiseT rc ds =>
      intro c hc
      simp only [STok.render, List.mem_cons] at hc
      rcases hc with rfl | hc
      · rcases hwf.1 with rfl | rfl <;> exact ⟨by decide, by decide⟩
      · have hd := hwf.2.2 c hc
        exact ⟨digit_ne_of '+' hd (by decide), digit_ne_of '-' hd (by decide)⟩
  | keep op ds =>
      intro c hc
      simp only [STok.render, List.mem_append] at hc
      rcases hc with hc | hc
      · rcases keepOp_chars op hwf.1 c hc with
          rfl | rfl | rfl | rfl | rfl | rfl | rfl | rfl | rfl | rfl | rfl | rfl | rfl | rfl <;>
          exact ⟨by decide, by decide⟩
      · have hd := hwf.2 c hc
        exact ⟨digit_ne_of '+' hd (by decide), digit_ne_of '-' hd (by decide)⟩

theorem render_keep_safe (tok : STok) (hwf : tok.WF) (hnt : tok.isKeep = false) :
    ∀ c ∈ tok.render, KeepSafeChar c := by
  cases tok with
  | keep op ds => simp [STok.isKeep] at hnt
  | target tc ds =>
      intro c hc
      simp only [STok.render, List.mem_cons] at hc
      rcases hc with rfl | hc
      · rcases hwf.1 with rfl | rfl <;> exact ⟨by decide, by decide, by decide, by decide, by decide, by decide⟩
      · have hd := hwf.2.2 c hc
        exact ⟨digit_ne_of 'k' hd (by decide), digit_ne_of 'K' hd (by decide),
          digit_ne_of 'a' hd (by decide), digit_ne_of 'A' hd (by decide),
          digit_ne_of 'd' hd (by decide), digit_ne_of 'D' hd (by decide)⟩
  | raiseT rc ds =>
      intro c hc
      simp only [STok.render, List.mem_cons] at hc
      rcases hc with rfl | hc
      · rcases hwf.1 with rfl | rfl <;> exact ⟨by decide, by decide, by decide, by decide, by decide, by decide⟩
      · have hd := hwf.2.2 c hc
        exact ⟨digit_ne_of 'k' hd (by decide), digit_ne_of 'K' hd (by decide),
          digit_ne_of 'a' hd (by decide), digit_ne_of 'A' hd (by decide),
          digit_ne_of 'd' hd (by decide), digit_ne_of 'D' hd (by decide)⟩
  | modTok sc ds =>
      intro c hc
      simp only [STok.render, List.mem_cons] at hc
      rcases hc with rfl | hc
      · rcases hwf.1 with rfl | rfl <;> exact ⟨by decide, by decide, by decide, by decide, by decide, by decide⟩
      · have hd := hwf.2.2 c hc
        exact ⟨digit_ne_of 'k' hd (by decide), digit_ne_of 'K' hd (by decide),
          digit_ne_of 'a' hd (by decide), digit_ne_of 'A' hd (by decide),
          digit_ne_of 'd' hd (by decide), digit_ne_of 'D' hd (by decide)⟩

/-- Properties every first character of a rendered suffix token has. -/
def SuffixHeadChar (c : Char) : Prop :=
  c.isDigit = false ∧ c ≠ 'l' ∧ c ≠ 'L' ∧ c ≠ 'w' ∧ c ≠ 'W' ∧ c ≠ '%' ∧ c ≠ '!'

theorem renderToks_nil : renderToks [] = [] := rfl

theorem renderToks_cons (tok : STok) (rest : List STok) :
    renderToks (tok :: rest) = tok.render ++ renderToks rest := by
  simp [renderToks]

theorem render_head (tok : STok) (hwf : tok.WF) :
    ∃ c t, tok.render = c :: t ∧ SuffixHeadChar c := by
  cases tok with
  | target tc ds =>
      refine ⟨tc, ds, rfl, ?_⟩
      rcases hwf.1 with rfl | rfl <;>
        exact ⟨by decide, by decide, by decide, by decide, by decide, by decide, by decide⟩
  | raiseT rc ds =>
      refine ⟨rc, ds, rfl, ?_⟩
      rcases hwf.1 with rfl | rfl <;>
        exact ⟨by decide, by decide, by decide, by decide, by decide, by decide, by decide⟩
  | modTok sc ds =>
      refine ⟨sc, ds, rfl, ?_⟩
      rcases hwf.1 with rfl | rfl <;>
        exact ⟨by decide, by decide, by decide, by decide, by decide, by decide, by decide⟩
  | keep op ds =>
      rcases hwf.1 with ⟨c, rfl, hc⟩ | ⟨c1, c2, rfl, h1, h2⟩ |
        ⟨c1, c2, c3, rfl, h1, h2, h3⟩ | ⟨c1, c2, c3, rfl, h1, h2, h3⟩
      · refine ⟨c, ds, rfl, ?_⟩
        rcases hc with rfl | rfl <;>
          exact ⟨by decide, by decide, by decide, by decide, by decide, by decide, by decide⟩
      · refine ⟨c1, c2 :: ds, rfl, ?_⟩
        rcases h1 with rfl | rfl <;>
          exact ⟨by decide, by decide, by decide, by decide, by decide, by decide, by decide⟩
      · refine ⟨c1, c2 :: c3 :: ds, rfl, ?_⟩
        rcases h1 with rfl | rfl <;>
          exact ⟨by decide, by decide, by decide, by decide, by decide, by decide, by decide⟩
      · refine ⟨c1, c2 :: c3 :: ds, rfl, ?_⟩
        rcases h1 with rfl | rfl <;>
          exact ⟨by decide, by decide, by decide, by decide, by decide, by decide, by decide⟩

theorem renderToks_headOk (l : List STok) (hwf : ∀ tok ∈ l, tok.WF) :
    HeadOk SuffixHeadChar (renderToks l) := by
  cases l with
  | nil => exact trivial
  | cons tok rest =>
      obtain ⟨c, t, hr, hc⟩ := render_head tok (hwf tok (List.mem_cons_self tok rest))
      rw [renderToks_cons, hr, List.cons_append]
      exact headOk_cons hc

theorem findTagNum_renderToks_t (l : List STok) (hwf : ∀ tok ∈ l, tok.WF) :
    findTagNum 't' 'T' (renderToks l)
      = ((l.filter STok.isTarget).head?).map STok.payload := by
  induction l with
  | nil => simp [renderToks_nil, findTagNum]
  | cons tok rest ih =>
      have hwft := hwf tok (List.mem_cons_self tok rest)
      have hwfr : ∀ x ∈ rest, x.WF := fun x hx => hwf x (List.mem_cons_of_mem tok hx)
      rw [renderToks_cons]
      by_cases htok : tok.isTarget = true
      · cases tok with
        | raiseT rc ds => simp [STok.isTarget] at htok
        | modTok sc ds => simp [STok.isTarget] at htok
        | keep op ds => simp [STok.isTarget] at htok
        | target tc ds =>
            obtain ⟨htc, hne, hds⟩ := hwft
            have hhead : HeadOk (fun x => x.isDigit = false) (renderToks rest) :=
              headOk_mono (fun c hc => hc.1) _ (renderToks_headOk rest hwfr)
            rw [show STok.render (.target tc ds) = tc :: ds from rfl,
              List.cons_append,
              findTagNum_hit 't' 'T' tc ds _ htc hds hne hhead]
            simp [List.filter_cons, STok.isTarget, STok.payload]
      · have hskip := render_no_t tok hwft (by simpa using htok)
        rw [findTagNum_append 't' 'T' _ tok.render hskip, ih hwfr]
        have : tok.isTarget = false := by simpa using htok
        simp [List.filter_cons, this]

theorem findTagNum_renderToks_r (l : List STok) (hwf : ∀ tok ∈ l, tok.WF) :
    findTagNum 'r' 'R' (renderToks l)
      = ((l.filter STok.isRaise).head?).map STok.payload := by
  induction l with
  | nil => simp [renderToks_nil, findTagNum]
  | cons tok rest ih =>
      have hwft := hwf tok (List.mem_cons_self tok rest)
      have hwfr : ∀ x ∈ rest, x.WF := fun x hx => hwf x (List.mem_cons_of_mem tok hx)
      rw [renderToks_cons]
      by_cases htok : tok.isRaise = true
      · cases tok with
        | target tc ds => simp [STok.isRaise] at htok
        | modTok sc ds => simp [STok.isRaise] at htok
        | keep op ds => simp [STok.isRaise] at htok
        | raiseT rc ds =>
            obtain ⟨hrc, hne, hds⟩ := hwft
            have hhead : HeadOk (fun x => x.isDigit = false) (renderToks rest) :=
              headOk_mono (fun c hc => hc.1) _ (renderToks_headOk rest hwfr)
            rw [show STok.render (.raiseT rc ds) = rc :: ds from rfl,
              List.cons_append,
              findTagNum_hit 'r' 'R' rc ds _ hrc hds hne hhead]
            simp [List.filter_cons, STok.isRaise, STok.payload]
      · have hskip := render_no_r tok hwft (by simpa using htok)
        rw [findTagNum_append 'r' 'R' _ tok.render hskip, ih hwfr]
        have : tok.isRaise = false := by simpa using htok
        simp [List.filter_cons, this]

theorem findSigned_renderToks (l : List STok) (hwf : ∀ tok ∈ l, tok.WF) :
    findSigned (renderToks l)
      = ((l.filter STok.isMod).head?).map STok.sigPayload := by
  induction l with
  | nil => simp [renderToks_nil, findSigned]
  | cons tok rest ih =>
      have hwft := hwf tok (List.mem_cons_self tok rest)
      have hwfr : ∀ x ∈ rest, x.WF := fun x hx => hwf x (List.mem_cons_of_mem tok hx)
      rw [renderToks_cons]
      by_cases htok : tok.isMod = true
      · cases tok with
        | target tc ds => simp [STok.isMod] at htok
        | raiseT rc ds => simp [STok.isMod] at htok
        | keep op ds => simp [STok.isMod] at htok
        | modTok sc ds =>
            obtain ⟨hsc, hne, hds⟩ := hwft
            have hhead : HeadOk (fun x => x.isDigit = false) (renderToks rest) :=
              headOk_mono (fun c hc => hc.1) _ (renderToks_headOk rest hwfr)
            rw [show STok.render (.modTok sc ds) = sc :: ds from rfl,
              List.cons_append,
              findSigned_hit sc ds _ hsc hds hne hhead]
            simp [List.filter_cons, STok.isMod, STok.sigPayload]
      · have hskip := render_no_sign tok hwft (by simpa using htok)
        rw [findSigned_append _ tok.render hskip, ih hwfr]
        have : tok.isMod = false := by simpa using htok
        simp [List.filter_cons, this]

theorem findKeep_renderToks (l : List STok) (hwf : ∀ tok ∈ l, tok.WF) :
    findKeep (renderToks l)
      = ((l.filter STok.isKeep).head?).map STok.opPayload := by
  induction l with
  | nil => simp [renderToks_nil, findKeep]
  | cons tok rest ih =>
      have hwft := hwf tok (List.mem_cons_self tok rest)
      have hwfr : ∀ x ∈ rest, x.WF := fun x hx => hwf x (List.mem_cons_of_mem tok hx)
      rw [renderToks_cons]
      by_cases htok : tok.isKeep = true
      · cases tok with
        | target tc ds => simp [STok.isKeep] at htok
        | raiseT rc ds => simp [STok.isKeep] at htok
        | modTok sc ds => simp [STok.isKeep] at htok
        | keep op ds =>
            obtain ⟨hop, hds⟩ := hwft
            have hhead : HeadOk (fun c => c.isDigit = false ∧ c ≠ 'l' ∧ c ≠ 'L')
                (renderToks rest) :=
              headOk_mono (fun c hc => ⟨hc.1, hc.2.1, hc.2.2.1⟩) _
                (renderToks_headOk rest hwfr)
            rw [show STok.render (.keep op ds) = op ++ ds from rfl,
              List.append_assoc,
              findKeep_hit op ds _ hop hds hhead]
            simp [List.filter_cons, STok.isKeep, STok.opPayload]
      · have hskip := render_keep_safe tok hwft (by simpa using htok)
        rw [findKeep_append _ tok.render hskip, ih hwfr]
        have : tok.isKeep = false := by simpa using htok
        simp [List.filter_cons, this]

theorem matchRepeat_some (ds : List Char) (xc : Char) (z : List Char)
    (hds : AllDigit ds) (hne : ds ≠ []) (hx : xc = 'x' ∨ xc = 'X') :
    matchRepeat (ds ++ xc :: z) = some (ds ++ [xc], z) := by
  have hx_nd : xc.isDigit = false := by rcases hx with rfl | rfl <;> decide
  have hspan := span_digit_prefix (xc :: z) (headOk_cons hx_nd) ds hds
  simp only [matchRepeat, hspan.1, hspan.2]
  rw [if_pos ⟨hx, hne⟩]

theorem matchRepeat_none_of (d1 : List Char) (c : Char) (z : List Char)
    (hd1 : AllDigit d1) (hcd : c.isDigit = false) (hcx : c ≠ 'x') (hcX : c ≠ 'X') :
    matchRepeat (d1 ++ c :: z) = none := by
  have hspan := span_digit_prefix (c :: z) (headOk_cons hcd) d1 hd1
  simp only [matchRepeat, hspan.1, hspan.2]
  rw [if_neg (by tauto)]

theorem matchSwBase_some_now (d1 d2 : List Char) (sc : Char) (rest : List Char)
    (hd1 : AllDigit d1) (hsc : sc = 's' ∨ sc = 'S') (hd2 : AllDigit d2)
    (hne : d2 ≠ [])
    (hrest : HeadOk (fun c => c.isDigit = false ∧ c ≠ 'w' ∧ c ≠ 'W') rest) :
    matchSwBase (d1 ++ sc :: (d2 ++ rest)) = some (d1 ++ sc :: d2, rest) := by
  have hsc_nd : sc.isDigit = false := by rcases hsc with rfl | rfl <;> decide
  have hspan1 := span_digit_prefix (sc :: (d2 ++ rest)) (headOk_cons hsc_nd) d1 hd1
  have hrest_nd : HeadOk (fun c => c.isDigit = false) rest :=
    headOk_mono (fun c hc => hc.1) rest hrest
  have hspan2 := span_digit_prefix rest hrest_nd d2 hd2
  simp only [matchSwBase, hspan1.1, hspan1.2, hspan2.1, hspan2.2]
  rw [if_pos hsc, if_neg hne]
  cases rest with
  | nil => rfl
  | cons wc t3 =>
      have hw := headOk_cons_elim hrest
      have hnw : ¬(wc = 'w' ∨ wc = 'W') := by tauto
      simp [hnw]

theorem matchSwBase_some_w (d1 d2 d3 : List Char) (sc wc : Char)
    (rest : List Char) (hd1 : AllDigit d1) (hsc : sc = 's' ∨ sc = 'S')
    (hd2 : AllDigit d2) (hne2 : d2 ≠ []) (hwc : wc = 'w' ∨ wc = 'W')
    (hd3 : AllDigit d3) (hne3 : d3 ≠ [])
    (hrest : HeadOk (fun c => c.isDigit = false) rest) :
    matchSwBase (d1 ++ sc :: (d2 ++ wc :: (d3 ++ rest)))
      = some (d1 ++ sc :: d2 ++ wc :: d3, rest) := by
  have hsc_nd : sc.isDigit = false := by rcases hsc with rfl | rfl <;> decide
  have hwc_nd : wc.isDigit = false := by rcases hwc with rfl | rfl <;> decide
  have hspan1 := span_digit_prefix (sc :: (d2 ++ wc :: (d3 ++ rest)))
    (headOk_cons hsc_nd) d1 hd1
  have hspan2 := span_digit_prefix (wc :: (d3 ++ rest)) (headOk_cons hwc_nd) d2 hd2
  have hspan3 := span_digit_prefix rest hrest d3 hd3
  simp only [matchSwBase, hspan1.1, hspan1.2, hspan2.1, hspan2.2, hspan3.1,
    hspan3.2]
  rw [if_pos hsc, if_neg hne2, if_pos hwc, if_neg hne3]

theorem matchSwBase_none_of (d1 : List Char) (c : Char) (z : List Char)
    (hd1 : AllDigit d1) (hcd : c.isDigit = false) (hcs : c ≠ 's') (hcS : c ≠ 'S') :
    matchSwBase (d1 ++ c :: z) = none := by
  have hspan := span_digit_prefix (c :: z) (headOk_cons hcd) d1 hd1
  simp only [matchSwBase, hspan.1, hspan.2]
  rw [if_neg (by tauto)]

theorem pctSplit_pct (base t : List Char) : pctSplit base ('%' :: t) = (base ++ ['%'], t) := rfl

theorem pctSplit_skip (base l : List Char) (h : HeadOk (fun c => c ≠ '%') l) :
    pctSplit base l = (base, l) := by
  cases l with
  | nil => rfl
  | cons c t =>
      have hc := headOk_cons_elim h
      rw [pctSplit.eq_def]
      split
      · rename_i heq
        rw [List.cons.injEq] at heq
        exact absurd heq.1 hc
      · rfl

theorem exclSplit_excl (t : List Char) : exclSplit ('!' :: t) = (true, t) := rfl

theorem exclSplit_skip (l : List Char) (h : HeadOk (fun c => c ≠ '!') l) :
    exclSplit l = (false, l) := by
  cases l with
  | nil => rfl
  | cons c t =>
      have hc := headOk_cons_elim h
      rw [exclSplit.eq_def]
      split
      · rename_i heq
        rw [List.cons.injEq] at heq
        exact absurd heq.1 hc
      · rfl

theorem matchGenBase_some (d1 d2 : List Char) (dc : Char) (pct excl : Bool)
    (rest : List Char) (hd1 : AllDigit d1) (hdc : dc = 'd' ∨ dc = 'D')
    (hd2 : AllDigit d2) (hne : d2 ≠ [])
    (hrest : HeadOk (fun c => c.isDigit = false ∧ c ≠ '%' ∧ c ≠ '!') rest) :
    matchGenBase (d1 ++ dc :: (d2 ++ ((if pct then ['%'] else [])
        ++ ((if excl then ['!'] else []) ++ rest))))
      = some (d1 ++ dc :: d2 ++ (if pct then ['%'] else []), excl, rest) := by
  have hdc_nd : dc.isDigit = false := by rcases hdc with rfl | rfl <;> decide
  have suffixHead : HeadOk (fun c => c.isDigit = false)
      ((if pct then ['%'] else []) ++ ((if excl then ['!'] else []) ++ rest)) := by
    cases pct <;> cases excl <;>
      try simp only [Bool.false_eq_true, if_true, if_false, List.cons_append,
        List.nil_append]
    all_goals
      first
        | exact headOk_cons (by decide)
        | exact headOk_mono (fun c hc => hc.1) rest hrest
  have hspan1 := span_digit_prefix
    (dc :: (d2 ++ ((if pct then ['%'] else []) ++ ((if excl then ['!'] else []) ++ rest))))
    (headOk_cons hdc_nd) d1 hd1
  have hspan2 := span_digit_prefix
    ((if pct then ['%'] else []) ++ ((if excl then ['!'] else []) ++ rest))
    suffixHead d2 hd2
  simp only [matchGenBase, hspan1.1, hspan1.2, hspan2.1, hspan2.2]
  rw [if_pos hdc, if_neg hne]
  have h_no_pct : HeadOk (fun c => c ≠ '%') rest :=
    headOk_mono (fun c hc => hc.2.1) rest hrest
  have h_no_excl : HeadOk (fun c => c ≠ '!') rest :=
    headOk_mono (fun c hc => hc.2.2) rest hrest
  cases pct <;> cases excl
  · simp only [Bool.false_eq_true, if_false, List.nil_append, List.append_nil,
      pctSplit_skip (d1 ++ dc :: d2) rest h_no_pct, exclSplit_skip rest h_no_excl]
  · simp only [Bool.false_eq_true, if_false, if_true, List.nil_append,
      List.append_nil, List.cons_append,
      pctSplit_skip (d1 ++ dc :: d2) ('!' :: rest) (headOk_cons (by decide)),
      exclSplit_excl rest]
  · simp only [Bool.false_eq_true, if_false, if_true, List.nil_append,
      List.append_nil, List.cons_append, pctSplit_pct (d1 ++ dc :: d2) rest,
      exclSplit_skip rest h_no_excl]
  · simp only [if_true, List.nil_append, List.cons_append,
      pctSplit_pct (d1 ++ dc :: d2) ('!' :: rest), exclSplit_excl rest]

theorem matchGenBase_none_of (d1 : List Char) (c : Char) (z : List Char)
    (hd1 : AllDigit d1) (hcd : c.isDigit = false) (hcs : c ≠ 'd') (hcS : c ≠ 'D') :
    matchGenBase (d1 ++ c :: z) = none := by
  have hspan := span_digit_prefix (c :: z) (headOk_cons hcd) d1 hd1
  simp only [matchGenBase, hspan.1, hspan.2]
  rw [if_neg (by tauto)]

def toksTarget (l : List STok) : Option (List Char) :=
  ((l.filter STok.isTarget).head?).map STok.payload

def toksRaise (l : List STok) : Option (List Char) :=
  ((l.filter STok.isRaise).head?).map STok.payload

def toksMod (l : List STok) : Option (Char × List Char) :=
  ((l.filter STok.isMod).head?).map STok.sigPayload

def toksKeep (l : List STok) : Option (List Char × List Char) :=
  ((l.filter STok.isKeep).head?).map STok.opPayload

theorem swSuffixCanonical_renderToks (l : List STok) (hl : ∀ tok ∈ l, tok.WF) :
    swSuffixCanonical (renderToks l)
      = emitTag 't' (toksTarget l) ++ (emitTag 'r' (toksRaise l)
          ++ emitSigned (toksMod l)) := by
  simp only [swSuffixCanonical, findTagNum_renderToks_t l hl,
    findTagNum_renderToks_r l hl, findSigned_renderToks l hl, toksTarget,
    toksRaise, toksMod, List.append_assoc]

theorem genSuffixCanonical_renderToks (l : List STok) (hl : ∀ tok ∈ l, tok.WF) :
    genSuffixCanonical (renderToks l)
      = emitKeep (toksKeep l) ++ (emitTag 't' (toksTarget l)
          ++ (emitTag 'r' (toksRaise l) ++ emitSigned (toksMod l))) := by
  simp only [genSuffixCanonical, findTagNum_renderToks_t l hl,
    findTagNum_renderToks_r l hl, findSigned_renderToks l hl,
    findKeep_renderToks l hl, toksTarget, toksRaise, toksMod, toksKeep,
    List.append_assoc]

theorem normalize_swBuild (rp : Option (List Char × Char)) (d1 : List Char)
    (sc : Char) (d2 : List Char) (w : Option (Char × List Char)) (l : List STok)
    (hrp : RpWF rp) (hd1 : AllDigit d1) (hsc : sc = 's' ∨ sc = 'S')
    (hne : d2 ≠ []) (hd2 : AllDigit d2) (hw : WWF w)
    (hl : ∀ tok ∈ l, tok.WF) :
    normalizeChars (swBuild rp d1 sc d2 w l)
      = renderRp rp ++ (d1 ++ sc :: d2 ++ renderW w)
          ++ (emitTag 't' (toksTarget l) ++ (emitTag 'r' (toksRaise l)
              ++ emitSigned (toksMod l))) := by
  have hhead := renderToks_headOk l hl
  have hsc_nd : sc.isDigit = false := by rcases hsc with rfl | rfl <;> decide
  have hsc_x : sc ≠ 'x' := by rcases hsc with rfl | rfl <;> decide
  have hsc_X : sc ≠ 'X' := by rcases hsc with rfl | rfl <;> decide
  have hcanon := swSuffixCanonical_renderToks l hl
  cases w with
  | none =>
      have hbase := matchSwBase_some_now d1 d2 sc (renderToks l) hd1 hsc hd2 hne
        (headOk_mono (fun c hc => ⟨hc.1, hc.2.2.2.1, hc.2.2.2.2.1⟩) _ hhead)
      cases rp with
      | none =>
          have hrep := matchRepeat_none_of d1 sc (d2 ++ renderToks l) hd1 hsc_nd
            hsc_x hsc_X
          simp only [swBuild, renderRp, renderW, List.nil_append,
            List.append_nil, List.append_assoc, List.cons_append] at hbase ⊢
          simp only [normalizeChars, hrep, hbase, hcanon, List.append_assoc,
            List.nil_append, List.cons_append]
      | some pr =>
          obtain ⟨ds, xc⟩ := pr
          obtain ⟨hpne, hpd, hpx⟩ := hrp
          have hrep := matchRepeat_some ds xc
            (d1 ++ sc :: (d2 ++ renderToks l)) hpd hpne hpx
          simp only [swBuild, renderRp, renderW, List.nil_append,
            List.append_nil, List.append_assoc, List.cons_append,
            List.singleton_append] at hbase hrep ⊢
          simp only [normalizeChars, hrep, hbase, hcanon, List.append_assoc,
            List.nil_append, List.singleton_append, List.cons_append]
  | some wp =>
      obtain ⟨wc, d3⟩ := wp
      obtain ⟨hwc, hne3, hd3⟩ := hw
      have hbase := matchSwBase_some_w d1 d2 d3 sc wc (renderToks l) hd1 hsc hd2
        hne hwc hd3 hne3 (headOk_mono (fun c hc => hc.1) _ hhead)
      cases rp with
      | none =>
          have hrep := matchRepeat_none_of d1 sc
            (d2 ++ (wc :: (d3 ++ renderToks l))) hd1 hsc_nd hsc_x hsc_X
          simp only [swBuild, renderRp, renderW, List.nil_append,
            List.append_nil, List.append_assoc, List.cons_append] at hbase ⊢
          simp only [normalizeChars, hrep, hbase, hcanon, List.append_assoc,
            List.nil_append, List.cons_append]
      | some pr =>
          obtain ⟨ds, xc⟩ := pr
          obtain ⟨hpne, hpd, hpx⟩ := hrp
          have hrep := matchRepeat_some ds xc
            (d1 ++ sc :: (d2 ++ (wc :: (d3 ++ renderToks l)))) hpd hpne hpx
          simp only [swBuild, renderRp, renderW, List.nil_append,
            List.append_nil, List.append_assoc, List.cons_append,
            List.singleton_append] at hbase hrep ⊢
          simp only [normalizeChars, hrep, hbase, hcanon, List.append_assoc,
            List.nil_append, List.singleton_append, List.cons_append]

theorem normalize_genBuild (rp : Option (List Char × Char)) (d1 : List Char)
    (dc : Char) (d2 : List Char) (pct excl : Bool) (l : List STok)
    (hrp : RpWF rp) (hd1 : AllDigit d1) (hdc : dc = 'd' ∨ dc = 'D')
    (hne : d2 ≠ []) (hd2 : AllDigit d2) (hl : ∀ tok ∈ l, tok.WF) :
    normalizeChars (genBuild rp d1 dc d2 pct excl l)
      = renderRp rp ++ (d1 ++ dc :: d2 ++ (if pct then ['%'] else []))
          ++ ((if excl then ['!'] else [])
            ++ (emitKeep (toksKeep l) ++ (emitTag 't' (toksTarget l)
              ++ (emitTag 'r' (toksRaise l) ++ emitSigned (toksMod l))))) := by
  have hhead := renderToks_headOk l hl
  have hdc_nd : dc.isDigit = false := by rcases hdc with rfl | rfl <;> decide
  have hdc_x : dc ≠ 'x' := by rcases hdc with rfl | rfl <;> decide
  have hdc_X : dc ≠ 'X' := by rcases hdc with rfl | rfl <;> decide
  have hdc_s : dc ≠ 's' := by rcases hdc with rfl | rfl <;> decide
  have hdc_S : dc ≠ 'S' := by rcases hdc with rfl | rfl <;> decide
  have hcanon := genSuffixCanonical_renderToks l hl
  have hsw := matchSwBase_none_of d1 dc
    (d2 ++ ((if pct then ['%'] else []) ++ ((if excl then ['!'] else [])
      ++ renderToks l))) hd1 hdc_nd hdc_s hdc_S
  have hbase := matchGenBase_some d1 d2 dc pct excl (renderToks l) hd1 hdc hd2 hne
    (headOk_mono (fun c hc =>
      ⟨hc.1, hc.2.2.2.2.2.1, hc.2.2.2.2.2.2⟩) _ hhead)
  cases rp with
  | none =>
      have hrep := matchRepeat_none_of d1 dc
        (d2 ++ ((if pct then ['%'] else []) ++ ((if excl then ['!'] else [])
          ++ renderToks l))) hd1 hdc_nd hdc_x hdc_X
      simp only [genBuild, renderRp, List.nil_append, List.append_nil,
        List.append_assoc, List.cons_append] at hbase ⊢
      simp only [normalizeChars, hrep, hsw, hbase, hcanon, List.append_assoc,
        List.nil_append, List.cons_append]
  | some pr =>
      obtain ⟨ds, xc⟩ := pr
      obtain ⟨hpne, hpd, hpx⟩ := hrp
      have hrep := matchRepeat_some ds xc
        (d1 ++ dc :: (d2 ++ ((if pct then ['%'] else [])
          ++ ((if excl then ['!'] else []) ++ renderToks l)))) hpd hpne hpx
      simp only [genBuild, renderRp, List.nil_append, List.append_nil,
        List.append_assoc, List.cons_append, List.singleton_append] at hbase hrep ⊢
      simp only [normalizeChars, hrep, hsw, hbase, hcanon, List.append_assoc,
        List.nil_append, List.singleton_append, List.cons_append]

theorem allDigit_takeWhile (l : List Char) : AllDigit (l.takeWhile Char.isDigit) :=
  fun _ hc => List.mem_takeWhile_imp hc

theorem matchRepeat_shape (s p rest : List Char)
    (h : matchRepeat s = some (p, rest)) :
    ∃ ds xc, p = ds ++ [xc] ∧ ds ≠ [] ∧ AllDigit ds ∧ (xc = 'x' ∨ xc = 'X') := by
  cases hdrop : s.dropWhile Char.isDigit with
  | nil =>
      simp only [matchRepeat, hdrop] at h
      exact Option.noConfusion h
  | cons c tail =>
      simp only [matchRepeat, hdrop] at h
      split at h
      · rename_i hcond
        rw [Option.some.injEq, Prod.mk.injEq] at h
        exact ⟨s.takeWhile Char.isDigit, c, h.1.symm, hcond.2,
          allDigit_takeWhile s, hcond.1⟩
      · cases h

theorem matchSwBase_shape (s base rest : List Char)
    (h : matchSwBase s = some (base, rest)) :
    ∃ d1 sc d2 w, base = d1 ++ sc :: d2 ++ renderW w ∧ AllDigit d1 ∧
      (sc = 's' ∨ sc = 'S') ∧ d2 ≠ [] ∧ AllDigit d2 ∧ WWF w := by
  cases hdrop : s.dropWhile Char.isDigit with
  | nil =>
      simp only [matchSwBase, hdrop] at h
      exact Option.noConfusion h
  | cons sc t1 =>
      cases hdrop2 : t1.dropWhile Char.isDigit with
      | nil =>
          simp only [matchSwBase, hdrop, hdrop2] at h
          split at h
          · rename_i hsc
            split at h
            · cases h
            · rename_i hne
              rw [Option.some.injEq, Prod.mk.injEq] at h
              refine ⟨s.takeWhile Char.isDigit, sc, t1.takeWhile Char.isDigit,
                none, ?_, allDigit_takeWhile s, hsc, hne,
                allDigit_takeWhile t1, trivial⟩
              simp [← h.1, renderW]
          · cases h
      | cons wc t3 =>
          simp only [matchSwBase, hdrop, hdrop2] at h
          split at h
          · rename_i hsc
            split at h
            · cases h
            · rename_i hne
              split at h
              · rename_i hwc
                split at h
                · rename_i hd3
                  rw [Option.some.injEq, Prod.mk.injEq] at h
                  refine ⟨s.takeWhile Char.isDigit, sc, t1.takeWhile Char.isDigit,
                    none, ?_, allDigit_takeWhile s, hsc, hne,
                    allDigit_takeWhile t1, trivial⟩
                  simp [← h.1, renderW]
                · rename_i hd3
                  rw [Option.some.injEq, Prod.mk.injEq] at h
                  refine ⟨s.takeWhile Char.isDigit, sc, t1.takeWhile Char.isDigit,
                    some (wc, t3.takeWhile Char.isDigit), ?_,
                    allDigit_takeWhile s, hsc, hne, allDigit_takeWhile t1,
                    hwc, hd3, allDigit_takeWhile t3⟩
                  simp [← h.1, renderW, List.append_assoc]
              · rw [Option.some.injEq, Prod.mk.injEq] at h
                refine ⟨s.takeWhile Char.isDigit, sc, t1.takeWhile Char.isDigit,
                  none, ?_, allDigit_takeWhile s, hsc, hne,
                  allDigit_takeWhile t1, trivial⟩
                simp [← h.1, renderW]
          · cases h

theorem pctSplit_shape (base t : List Char) :
    ∃ (pct : Bool) (rest2 : List Char), pctSplit base t
      = (base ++ (if pct then ['%'] else []), rest2) := by
  cases t with
  | nil => exact ⟨false, [], by simp [pctSplit]⟩
  | cons c t3 =>
      by_cases hc : c = '%'
      · subst hc
        exact ⟨true, t3, rfl⟩
      · refine ⟨false, c :: t3, ?_⟩
        rw [pctSplit_skip base _ (headOk_cons hc)]
        simp

theorem matchGenBase_shape (s base rest : List Char) (excl : Bool)
    (h : matchGenBase s = some (base, excl, rest)) :
    ∃ (d1 : List Char) (dc : Char) (d2 : List Char) (pct : Bool),
      base = d1 ++ dc :: d2 ++ (if pct then ['%'] else []) ∧
      AllDigit d1 ∧ (dc = 'd' ∨ dc = 'D') ∧ d2 ≠ [] ∧ AllDigit d2 := by
  cases hdrop : s.dropWhile Char.isDigit with
  | nil =>
      simp only [matchGenBase, hdrop] at h
      exact Option.noConfusion h
  | cons dc t1 =>
      obtain ⟨pct, rest2, hps⟩ := pctSplit_shape
        (s.takeWhile Char.isDigit ++ dc :: t1.takeWhile Char.isDigit)
        (t1.dropWhile Char.isDigit)
      simp only [matchGenBase, hdrop, hps] at h
      split at h
      · rename_i hdc
        split at h
        · cases h
        · rename_i hne
          rw [Option.some.injEq, Prod.mk.injEq] at h
          refine ⟨s.takeWhile Char.isDigit, dc, t1.takeWhile Char.isDigit, pct,
            ?_, allDigit_takeWhile s, hdc, hne, allDigit_takeWhile t1⟩
          simp [← h.1, List.append_assoc]
      · cases h

theorem findTagNum_shape (a b : Char) :
    ∀ l ds, findTagNum a b l = some ds → ds ≠ [] ∧ AllDigit ds := by
  intro l
  induction l with
  | nil => intro ds h; cases h
  | cons c rest ih =>
      intro ds h
      simp only [findTagNum] at h
      split at h
      · split at h
        · exact ih ds h
        · rename_i hne
          rw [Option.some.injEq] at h
          subst h
          exact ⟨hne, allDigit_takeWhile rest⟩
      · exact ih ds h

theorem findSigned_shape :
    ∀ l sc ds, findSigned l = some (sc, ds) →
      (sc = '+' ∨ sc = '-') ∧ ds ≠ [] ∧ AllDigit ds := by
  intro l
  induction l with
  | nil => intro sc ds h; cases h
  | cons c rest ih =>
      intro sc ds h
      simp only [findSigned] at h
      split at h
      · split at h
        · exact ih sc ds h
        · rename_i hc hne
          rw [Option.some.injEq, Prod.mk.injEq] at h
          obtain ⟨h1, h2⟩ := h
          subst h1
          subst h2
          exact ⟨hc, hne, allDigit_takeWhile rest⟩
      · exact ih sc ds h

theorem findKeep_shape :
    ∀ l op ds, findKeep l = some (op, ds) → KeepOpWF op ∧ AllDigit ds := by
  intro l
  induction l with
  | nil => intro op ds h; cases h
  | cons c1 rest ih =>
      intro op ds h
      by_cases hk : c1 = 'k' ∨ c1 = 'K'
      · cases rest with
        | nil =>
            simp only [findKeep, if_pos hk] at h
            rw [Option.some.injEq, Prod.mk.injEq] at h
            obtain ⟨h1, h2⟩ := h
            subst h1
            subst h2
            exact ⟨Or.inl ⟨c1, rfl, hk⟩, fun c hc => absurd hc (List.not_mem_nil c)⟩
        | cons c2 rest2 =>
            simp only [findKeep, if_pos hk] at h
            split at h
            · rename_i hl2
              rw [Option.some.injEq, Prod.mk.injEq] at h
              obtain ⟨h1, h2⟩ := h
              subst h1
              subst h2
              exact ⟨Or.inr (Or.inl ⟨c1, c2, rfl, hk, hl2⟩),
                allDigit_takeWhile rest2⟩
            · rw [Option.some.injEq, Prod.mk.injEq] at h
              obtain ⟨h1, h2⟩ := h
              subst h1
              subst h2
              exact ⟨Or.inl ⟨c1, rfl, hk⟩, allDigit_takeWhile (c2 :: rest2)⟩
      · cases rest with
        | nil =>
            simp only [findKeep, if_neg hk] at h
            cases h
        | cons c2 rest2 =>
            cases rest2 with
            | nil =>
                simp only [findKeep, if_neg hk] at h
                exact ih op ds h
            | cons c3 rest3 =>
                simp only [findKeep, if_neg hk] at h
                split at h
                · rename_i hcond
                  rw [Option.some.injEq, Prod.mk.injEq] at h
                  obtain ⟨h1, h2⟩ := h
                  subst h1
                  subst h2
                  rcases hcond with ⟨ha, hb, hcv⟩ | ⟨ha, hb, hcv⟩
                  · exact ⟨Or.inr (Or.inr (Or.inl ⟨c1, c2, c3, rfl, ha, hb, hcv⟩)),
                      allDigit_takeWhile rest3⟩
                  · exact ⟨Or.inr (Or.inr (Or.inr ⟨c1, c2, c3, rfl, ha, hb, hcv⟩)),
                      allDigit_takeWhile rest3⟩
                · exact ih op ds h

/-- Token list in canonical Savage Worlds order: target, raise, modifier. -/
def canonToksSw (t r : Option (List Char)) (m : Option (Char × List Char)) :
    List STok :=
  (match t with
    | some ds => [STok.target 't' ds]
    | none => []) ++
  ((match r with
    | some ds => [STok.raiseT 'r' ds]
    | none => []) ++
  (match m with
    | some md => [STok.modTok md.1 md.2]
    | none => []))

/-- Token list in canonical generic order: lowercased keep, then target,
raise, modifier. -/
def canonToksGen (k : Option (List Char × List Char)) (t r : Option (List Char))
    (m : Option (Char × List Char)) : List STok :=
  (match k with
    | some kp => [STok.keep (lowerList kp.1) kp.2]
    | none => []) ++ canonToksSw t r m

theorem renderToks_canonSw (t r : Option (List Char))
    (m : Option (Char × List Char)) :
    renderToks (canonToksSw t r m)
      = emitTag 't' t ++ (emitTag 'r' r ++ emitSigned m) := by
  rcases t with _ | ds <;> rcases r with _ | ds2 <;> rcases m with _ | ⟨sc, ds3⟩ <;>
    simp [canonToksSw, renderToks, STok.render, emitTag, emitSigned]

theorem renderToks_canonGen (k : Option (List Char × List Char))
    (t r : Option (List Char)) (m : Option (Char × List Char)) :
    renderToks (canonToksGen k t r m)
      = emitKeep k ++ (emitTag 't' t ++ (emitTag 'r' r ++ emitSigned m)) := by
  rcases k with _ | ⟨op, ds⟩ <;>
    simp [canonToksGen, renderToks, STok.render, emitKeep, List.append_assoc,
      ← renderToks_canonSw t r m]

theorem toksTarget_canonSw (t r : Option (List Char))
    (m : Option (Char × List Char)) : toksTarget (canonToksSw t r m) = t := by
  rcases t with _ | ds <;> rcases r with _ | ds2 <;> rcases m with _ | ⟨sc, ds3⟩ <;>
    simp [canonToksSw, toksTarget, List.filter_append, STok.isTarget, STok.payload]

theorem toksRaise_canonSw (t r : Option (List Char))
    (m : Option (Char × List Char)) : toksRaise (canonToksSw t r m) = r := by
  rcases t with _ | ds <;> rcases r with _ | ds2 <;> rcases m with _ | ⟨sc, ds3⟩ <;>
    simp [canonToksSw, toksRaise, List.filter_append, STok.isRaise, STok.payload]

theorem toksMod_canonSw (t r : Option (List Char))
    (m : Option (Char × List Char)) : toksMod (canonToksSw t r m) = m := by
  rcases t with _ | ds <;> rcases r with _ | ds2 <;> rcases m with _ | ⟨sc, ds3⟩ <;>
    simp [canonToksSw, toksMod, List.filter_append, STok.isMod, STok.sigPayload]

theorem toksKeep_canonSw (t r : Option (List Char))
    (m : Option (Char × List Char)) : toksKeep (canonToksSw t r m) = none := by
  rcases t with _ | ds <;> rcases r with _ | ds2 <;> rcases m with _ | ⟨sc, ds3⟩ <;>
    simp [canonToksSw, toksKeep, List.filter_append, STok.isKeep]

theorem toksTarget_canonGen (k : Option (List Char × List Char))
    (t r : Option (List Char)) (m : Option (Char × List Char)) :
    toksTarget (canonToksGen k t r m) = t := by
  rcases k with _ | ⟨op, ds⟩ <;>
    simp [canonToksGen, toksTarget, List.filter_append, STok.isKeep] <;>
    simpa [toksTarget] using toksTarget_canonSw t r m

theorem toksRaise_canonGen (k : Option (List Char × List Char))
    (t r : Option (List Char)) (m : Option (Char × List Char)) :
    toksRaise (canonToksGen k t r m) = r := by
  rcases k with _ | ⟨op, ds⟩ <;>
    simp [canonToksGen, toksRaise, List.filter_append, STok.isKeep] <;>
    simpa [toksRaise] using toksRaise_canonSw t r m

theorem toksMod_canonGen (k : Option (List Char × List Char))
    (t r : Option (List Char)) (m : Option (Char × List Char)) :
    toksMod (canonToksGen k t r m) = m := by
  rcases k with _ | ⟨op, ds⟩ <;>
    simp [canonToksGen, toksMod, List.filter_append, STok.isKeep] <;>
    simpa [toksMod] using toksMod_canonSw t r m

theorem toksKeep_canonGen (k : Option (List Char × List Char))
    (t r : Option (List Char)) (m : Option (Char × List Char)) :
    toksKeep (canonToksGen k t r m)
      = (match k with
          | some kp => some (lowerList kp.1, kp.2)
          | none => none) := by
  rcases k with _ | ⟨op, ds⟩ <;>
    simp [canonToksGen, toksKeep, List.filter_append, STok.isKeep,
      STok.opPayload] <;>
    simpa [toksKeep] using toksKeep_canonSw t r m

theorem lowerList_keepOp (op : List Char) (h : KeepOpWF op) :
    lowerList op = ['k'] ∨ lowerList op = ['k', 'l'] ∨
      lowerList op = ['a', 'd', 'v'] ∨ lowerList op = ['d', 'i', 's'] := by
  rcases h with ⟨c, rfl, hc⟩ | ⟨c1, c2, rfl, h1, h2⟩ |
    ⟨c1, c2, c3, rfl, h1, h2, h3⟩ | ⟨c1, c2, c3, rfl, h1, h2, h3⟩
  · left
    rcases hc with rfl | rfl <;> decide
  · right; left
    rcases h1 with rfl | rfl <;> rcases h2 with rfl | rfl <;> decide
  · right; right; left
    rcases h1 with rfl | rfl <;> rcases h2 with rfl | rfl <;>
      rcases h3 with rfl | rfl <;> decide
  · right; right; right
    rcases h1 with rfl | rfl <;> rcases h2 with rfl | rfl <;>
      rcases h3 with rfl | rfl <;> decide

theorem keepOpWF_lower (op : List Char) (h : KeepOpWF op) :
    KeepOpWF (lowerList op) := by
  rcases lowerList_keepOp op h with e | e | e | e <;> rw [e]
  · exact Or.inl ⟨'k', rfl, Or.inl rfl⟩
  · exact Or.inr (Or.inl ⟨'k', 'l', rfl, Or.inl rfl, Or.inl rfl⟩)
  · exact Or.inr (Or.inr (Or.inl ⟨'a', 'd', 'v', rfl, Or.inl rfl, Or.inl rfl,
      Or.inl rfl⟩))
  · exact Or.inr (Or.inr (Or.inr ⟨'d', 'i', 's', rfl, Or.inl rfl, Or.inl rfl,
      Or.inl rfl⟩))

theorem lowerList_keepOp_idem (op : List Char) (h : KeepOpWF op) :
    lowerList (lowerList op) = lowerList op := by
  rcases lowerList_keepOp op h with e | e | e | e <;> rw [e] <;> decide

theorem canonToksSw_wf (t r : Option (List Char)) (m : Option (Char × List Char))
    (ht : ∀ ds, t = some ds → ds ≠ [] ∧ AllDigit ds)
    (hr : ∀ ds, r = some ds → ds ≠ [] ∧ AllDigit ds)
    (hm : ∀ sc ds, m = some (sc, ds) →
      (sc = '+' ∨ sc = '-') ∧ ds ≠ [] ∧ AllDigit ds) :
    ∀ tok ∈ canonToksSw t r m, tok.WF := by
  intro tok htok
  rcases t with _ | ds <;> rcases r with _ | ds2 <;> rcases m with _ | ⟨sc, ds3⟩ <;>
    simp only [canonToksSw, List.nil_append, List.append_nil, List.cons_append,
      List.mem_cons, List.not_mem_nil, or_false, false_or,
      List.mem_append, List.mem_singleton] at htok <;>
  (first
    | (rcases htok with rfl | rfl | rfl)
    | (rcases htok with rfl | rfl)
    | (subst htok)) <;>
  (first
    | exact ⟨Or.inl rfl, (ht _ rfl).1, (ht _ rfl).2⟩
    | exact ⟨Or.inl rfl, (hr _ rfl).1, (hr _ rfl).2⟩
    | exact ⟨(hm _ _ rfl).1, (hm _ _ rfl).2.1, (hm _ _ rfl).2.2⟩)

theorem canonToksGen_wf (k : Option (List Char × List Char))
    (t r : Option (List Char)) (m : Option (Char × List Char))
    (hk : ∀ op ds, k = some (op, ds) → KeepOpWF op ∧ AllDigit ds)
    (ht : ∀ ds, t = some ds → ds ≠ [] ∧ AllDigit ds)
    (hr : ∀ ds, r = some ds → ds ≠ [] ∧ AllDigit ds)
    (hm : ∀ sc ds, m = some (sc, ds) →
      (sc = '+' ∨ sc = '-') ∧ ds ≠ [] ∧ AllDigit ds) :
    ∀ tok ∈ canonToksGen k t r m, tok.WF := by
  intro tok htok
  rcases k with _ | ⟨op, ds0⟩
  · exact canonToksSw_wf t r m ht hr hm tok (by simpa [canonToksGen] using htok)
  · simp only [canonToksGen, List.cons_append, List.mem_cons] at htok
    rcases htok with rfl | htok
    · exact ⟨keepOpWF_lower op (hk op ds0 rfl).1, (hk op ds0 rfl).2⟩
    · exact canonToksSw_wf t r m ht hr hm tok htok

theorem normalize_sw_output_fixed (rp0 : Option (List Char × Char))
    (base rest : List Char) (hrp : RpWF rp0)
    (hshape : ∃ d1 sc d2 w, base = d1 ++ sc :: d2 ++ renderW w ∧ AllDigit d1 ∧
      (sc = 's' ∨ sc = 'S') ∧ d2 ≠ [] ∧ AllDigit d2 ∧ WWF w) :
    normalizeChars (renderRp rp0 ++ (base ++ swSuffixCanonical rest))
      = renderRp rp0 ++ (base ++ swSuffixCanonical rest) := by
  obtain ⟨d1, sc, d2, w, hb, hd1, hsc, hne, hd2, hw⟩ := hshape
  subst hb
  have hwfL : ∀ tok ∈ canonToksSw (findTagNum 't' 'T' rest)
      (findTagNum 'r' 'R' rest) (findSigned rest), STok.WF tok := by
    apply canonToksSw_wf
    · intro ds h; exact findTagNum_shape 't' 'T' rest ds h
    · intro ds h; exact findTagNum_shape 'r' 'R' rest ds h
    · intro sc2 ds h; exact findSigned_shape rest sc2 ds h
  have hcanon : swSuffixCanonical rest
      = renderToks (canonToksSw (findTagNum 't' 'T' rest)
          (findTagNum 'r' 'R' rest) (findSigned rest)) := by
    rw [renderToks_canonSw]
    simp [swSuffixCanonical, List.append_assoc]
  calc normalizeChars (renderRp rp0 ++ ((d1 ++ sc :: d2 ++ renderW w)
          ++ swSuffixCanonical rest))
      = normalizeChars (swBuild rp0 d1 sc d2 w
          (canonToksSw (findTagNum 't' 'T' rest) (findTagNum 'r' 'R' rest)
            (findSigned rest))) := by
        exact congrArg normalizeChars (by rw [hcanon]; simp [swBuild,
          List.append_assoc])
    _ = renderRp rp0 ++ (d1 ++ sc :: d2 ++ renderW w)
          ++ (emitTag 't' (toksTarget (canonToksSw (findTagNum 't' 'T' rest)
              (findTagNum 'r' 'R' rest) (findSigned rest)))
            ++ (emitTag 'r' (toksRaise (canonToksSw (findTagNum 't' 'T' rest)
              (findTagNum 'r' 'R' rest) (findSigned rest)))
            ++ emitSigned (toksMod (canonToksSw (findTagNum 't' 'T' rest)
              (findTagNum 'r' 'R' rest) (findSigned rest))))) :=
        normalize_swBuild rp0 d1 sc d2 w _ hrp hd1 hsc hne hd2 hw hwfL
    _ = renderRp rp0 ++ ((d1 ++ sc :: d2 ++ renderW w)
          ++ swSuffixCanonical rest) := by
        rw [toksTarget_canonSw, toksRaise_canonSw, toksMod_canonSw]
        simp [swSuffixCanonical, List.append_assoc]

theorem normalize_gen_output_fixed (rp0 : Option (List Char × Char))
    (base rest : List Char) (excl : Bool) (hrp : RpWF rp0)
    (hshape : ∃ (d1 : List Char) (dc : Char) (d2 : List Char) (pct : Bool),
      base = d1 ++ dc :: d2 ++ (if pct then ['%'] else []) ∧ AllDigit d1 ∧
      (dc = 'd' ∨ dc = 'D') ∧ d2 ≠ [] ∧ AllDigit d2) :
    normalizeChars (renderRp rp0 ++ (base ++ ((if excl then ['!'] else [])
        ++ genSuffixCanonical rest)))
      = renderRp rp0 ++ (base ++ ((if excl then ['!'] else [])
          ++ genSuffixCanonical rest)) := by
  obtain ⟨d1, dc, d2, pct, hb, hd1, hdc, hne, hd2⟩ := hshape
  subst hb
  have hkshape : ∀ op ds, findKeep rest = some (op, ds) →
      KeepOpWF op ∧ AllDigit ds := fun op ds h => findKeep_shape rest op ds h
  have hwfL : ∀ tok ∈ canonToksGen (findKeep rest) (findTagNum 't' 'T' rest)
      (findTagNum 'r' 'R' rest) (findSigned rest), STok.WF tok := by
    apply canonToksGen_wf
    · exact hkshape
    · intro ds h; exact findTagNum_shape 't' 'T' rest ds h
    · intro ds h; exact findTagNum_shape 'r' 'R' rest ds h
    · intro sc2 ds h; exact findSigned_shape rest sc2 ds h
  have hemitk : emitKeep ((match findKeep rest with
      | some kp => some (lowerList kp.1, kp.2)
      | none => none) : Option (List Char × List Char))
      = emitKeep (findKeep rest) := by
    cases hfk : findKeep rest with
    | none => rfl
    | some kp =>
        obtain ⟨op, ds⟩ := kp
        simp only [emitKeep]
        rw [lowerList_keepOp_idem op (hkshape op ds hfk).1]
  have hcanon : genSuffixCanonical rest
      = renderToks (canonToksGen (findKeep rest) (findTagNum 't' 'T' rest)
          (findTagNum 'r' 'R' rest) (findSigned rest)) := by
    rw [renderToks_canonGen]
    simp [genSuffixCanonical, List.append_assoc]
  calc normalizeChars (renderRp rp0 ++ ((d1 ++ dc :: d2
          ++ (if pct then ['%'] else []))
          ++ ((if excl then ['!'] else []) ++ genSuffixCanonical rest)))
      = normalizeChars (genBuild rp0 d1 dc d2 pct excl
          (canonToksGen (findKeep rest) (findTagNum 't' 'T' rest)
            (findTagNum 'r' 'R' rest) (findSigned rest))) := by
        exact congrArg normalizeChars (by rw [hcanon]; simp [genBuild,
          List.append_assoc])
    _ = renderRp rp0 ++ (d1 ++ dc :: d2 ++ (if pct then ['%'] else []))
          ++ ((if excl then ['!'] else [])
            ++ (emitKeep (toksKeep (canonToksGen (findKeep rest)
                (findTagNum 't' 'T' rest) (findTagNum 'r' 'R' rest)
                (findSigned rest)))
              ++ (emitTag 't' (toksTarget (canonToksGen (findKeep rest)
                (findTagNum 't' 'T' rest) (findTagNum 'r' 'R' rest)
                (findSigned rest)))
              ++ (emitTag 'r' (toksRaise (canonToksGen (findKeep rest)
                (findTagNum 't' 'T' rest) (findTagNum 'r' 'R' rest)
                (findSigned rest)))
              ++ emitSigned (toksMod (canonToksGen (findKeep rest)
                (findTagNum 't' 'T' rest) (findTagNum 'r' 'R' rest)
                (findSigned rest))))))) :=
        normalize_genBuild rp0 d1 dc d2 pct excl _ hrp hd1 hdc hne hd2 hwfL
    _ = renderRp rp0 ++ ((d1 ++ dc :: d2 ++ (if pct then ['%'] else []))
          ++ ((if excl then ['!'] else []) ++ genSuffixCanonical rest)) := by
        rw [toksTarget_canonGen, toksRaise_canonGen, toksMod_canonGen,
          toksKeep_canonGen, hemitk]
        simp [genSuffixCanonical, List.append_assoc]

theorem normalizeChars_idem_all (s : List Char) :
    normalizeChars (normalizeChars s) = normalizeChars s := by
  cases hrep : matchRepeat s with
  | none =>
      cases hsw : matchSwBase s with
      | some pr =>
          obtain ⟨base, rest⟩ := pr
          have hout : normalizeChars s
              = renderRp none ++ (base ++ swSuffixCanonical rest) := by
            simp [normalizeChars, hrep, hsw, renderRp, List.append_assoc]
          rw [hout]
          exact normalize_sw_output_fixed none base rest trivial
            (matchSwBase_shape s base rest hsw)
      | none =>
          cases hgen : matchGenBase s with
          | some tr =>
              obtain ⟨base, excl, rest⟩ := tr
              have hout : normalizeChars s
                  = renderRp none ++ (base ++ ((if excl then ['!'] else [])
                      ++ genSuffixCanonical rest)) := by
                simp [normalizeChars, hrep, hsw, hgen, renderRp,
                  List.append_assoc]
              rw [hout]
              exact normalize_gen_output_fixed none base rest excl trivial
                (matchGenBase_shape s base rest excl hgen)
          | none =>
              have hid : normalizeChars s = s := by
                simp [normalizeChars, hrep, hsw, hgen]
              rw [hid]
              exact hid
  | some pr =>
      obtain ⟨p, roll⟩ := pr
      obtain ⟨ds, xc, hp, hdsne, hdsd, hx⟩ := matchRepeat_shape s p roll hrep
      have hrp : RpWF (some (ds, xc)) := ⟨hdsne, hdsd, hx⟩
      cases hsw : matchSwBase roll with
      | some pr2 =>
          obtain ⟨base, rest⟩ := pr2
          have hout : normalizeChars s
              = renderRp (some (ds, xc)) ++ (base ++ swSuffixCanonical rest) := by
            simp [normalizeChars, hrep, hsw, renderRp, hp, List.append_assoc]
          rw [hout]
          exact normalize_sw_output_fixed (some (ds, xc)) base rest hrp
            (matchSwBase_shape roll base rest hsw)
      | none =>
          cases hgen : matchGenBase roll with
          | some tr =>
              obtain ⟨base, excl, rest⟩ := tr
              have hout : normalizeChars s
                  = renderRp (some (ds, xc)) ++ (base
                      ++ ((if excl then ['!'] else [])
                        ++ genSuffixCanonical rest)) := by
                simp [normalizeChars, hrep, hsw, hgen, renderRp, hp,
                  List.append_assoc]
              rw [hout]
              exact normalize_gen_output_fixed (some (ds, xc)) base rest excl hrp
                (matchGenBase_shape roll base rest excl hgen)
          | none =>
              have hid : normalizeChars s = s := by
                simp [normalizeChars, hrep, hsw, hgen]
              rw [hid]
              exact hid

theorem filter_kind_length (p : STok → Bool)
    (hkind : ∀ a b : STok, p a = true → p b = true → a.kind = b.kind) :
    ∀ l : List STok, l.Pairwise (fun a b => a.kind ≠ b.kind) →
      (l.filter p).length ≤ 1 := by
  intro l
  induction l with
  | nil => intro _; simp
  | cons a t ih =>
      intro hp
      rw [List.filter_cons]
      by_cases hpa : p a = true
      · have hnil : t.filter p = [] := by
          apply List.filter_eq_nil_iff.mpr
          intro b hb hpb
          exact (List.rel_of_pairwise_cons hp hb) (hkind a b hpa hpb)
        simp [hpa, hnil]
      · have := ih (List.Pairwise.sublist (List.sublist_cons_self a t) hp)
        simp only [hpa, if_false, Bool.false_eq_true]
        simpa using this

theorem filter_head_eq_of_perm (p : STok → Bool)
    (hkind : ∀ a b : STok, p a = true → p b = true → a.kind = b.kind)
    (l1 l2 : List STok) (hperm : l1.Perm l2)
    (hpair : l1.Pairwise (fun a b => a.kind ≠ b.kind)) :
    (l1.filter p).head? = (l2.filter p).head? := by
  have hf : (l1.filter p).Perm (l2.filter p) := hperm.filter p
  have hlen := filter_kind_length p hkind l1 hpair
  cases hfl : l1.filter p with
  | nil =>
      rw [hfl] at hf
      rw [hf.symm.eq_nil]
  | cons a t =>
      rw [hfl] at hf hlen
      have ht : t = [] := by
        cases t with
        | nil => rfl
        | cons b t2 => simp at hlen
      subst ht
      rw [List.perm_singleton.mp hf.symm]

theorem kind_isTarget : ∀ a b : STok, a.isTarget = true → b.isTarget = true →
    a.kind = b.kind := by
  intro a b ha hb
  cases a <;> cases b <;> simp_all [STok.isTarget, STok.kind]

theorem kind_isRaise : ∀ a b : STok, a.isRaise = true → b.isRaise = true →
    a.kind = b.kind := by
  intro a b ha hb
  cases a <;> cases b <;> simp_all [STok.isRaise, STok.kind]

theorem kind_isMod : ∀ a b : STok, a.isMod = true → b.isMod = true →
    a.kind = b.kind := by
  intro a b ha hb
  cases a <;> cases b <;> simp_all [STok.isMod, STok.kind]

theorem kind_isKeep : ∀ a b : STok, a.isKeep = true → b.isKeep = true →
    a.kind = b.kind := by
  intro a b ha hb
  cases a <;> cases b <;> simp_all [STok.isKeep, STok.kind]

/-- C7 amended: normalizeExpression is idempotent on every input; for a
recognized Savage Worlds shape any permutation of its suffix tokens (target,
raise, modifier) normalizes to the same string; for a recognized generic
die-roll shape any permutation of its suffix tokens (keep, target, raise,
modifier) normalizes to the same string, provided the explosion mark stays
directly after the die base (the counterexample shows it is dropped
anywhere else); and strings matching no recognized shape pass through
unchanged. -/
theorem normalize_idempotent_and_permutation :
    (∀ s : List Char, normalizeChars (normalizeChars s) = normalizeChars s) ∧
    (∀ (rp : Option (List Char × Char)) (d1 : List Char) (sc : Char)
        (d2 : List Char) (w : Option (Char × List Char)) (l1 l2 : List STok),
      RpWF rp → AllDigit d1 → (sc = 's' ∨ sc = 'S') → d2 ≠ [] → AllDigit d2 →
      WWF w → (∀ tok ∈ l1, tok.WF) →
      l1.Pairwise (fun a b => a.kind ≠ b.kind) → l1.Perm l2 →
      normalizeChars (swBuild rp d1 sc d2 w l1)
        = normalizeChars (swBuild rp d1 sc d2 w l2)) ∧
    (∀ (rp : Option (List Char × Char)) (d1 : List Char) (dc : Char)
        (d2 : List Char) (pct excl : Bool) (l1 l2 : List STok),
      RpWF rp → AllDigit d1 → (dc = 'd' ∨ dc = 'D') → d2 ≠ [] → AllDigit d2 →
      (∀ tok ∈ l1, tok.WF) →
      l1.Pairwise (fun a b => a.kind ≠ b.kind) → l1.Perm l2 →
      normalizeChars (genBuild rp d1 dc d2 pct excl l1)
        = normalizeChars (genBuild rp d1 dc d2 pct excl l2)) ∧
    (∀ s : List Char, ¬ Recognized s → normalizeChars s = s) := by
  refine ⟨normalizeChars_idem_all, ?_, ?_, ?_⟩
  · intro rp d1 sc d2 w l1 l2 hrp hd1 hsc hne hd2 hw hwf1 hpair hperm
    have hwf2 : ∀ tok ∈ l2, tok.WF := fun tok htok =>
      hwf1 tok (hperm.mem_iff.mpr htok)
    rw [normalize_swBuild rp d1 sc d2 w l1 hrp hd1 hsc hne hd2 hw hwf1,
      normalize_swBuild rp d1 sc d2 w l2 hrp hd1 hsc hne hd2 hw hwf2]
    have et : toksTarget l1 = toksTarget l2 := by
      unfold toksTarget
      rw [filter_head_eq_of_perm STok.isTarget kind_isTarget l1 l2 hperm hpair]
    have er : toksRaise l1 = toksRaise l2 := by
      unfold toksRaise
      rw [filter_head_eq_of_perm STok.isRaise kind_isRaise l1 l2 hperm hpair]
    have em : toksMod l1 = toksMod l2 := by
      unfold toksMod
      rw [filter_head_eq_of_perm STok.isMod kind_isMod l1 l2 hperm hpair]
    rw [et, er, em]
  · intro rp d1 dc d2 pct excl l1 l2 hrp hd1 hdc hne hd2 hwf1 hpair hperm
    have hwf2 : ∀ tok ∈ l2, tok.WF := fun tok htok =>
      hwf1 tok (hperm.mem_iff.mpr htok)
    rw [normalize_genBuild rp d1 dc d2 pct excl l1 hrp hd1 hdc hne hd2 hwf1,
      normalize_genBuild rp d1 dc d2 pct excl l2 hrp hd1 hdc hne hd2 hwf2]
    have et : toksTarget l1 = toksTarget l2 := by
      unfold toksTarget
      rw [filter_head_eq_of_perm STok.isTarget kind_isTarget l1 l2 hperm hpair]
    have er : toksRaise l1 = toksRaise l2 := by
      unfold toksRaise
      rw [filter_head_eq_of_perm STok.isRaise kind_isRaise l1 l2 hperm hpair]
    have em : toksMod l1 = toksMod l2 := by
      unfold toksMod
      rw [filter_head_eq_of_perm STok.isMod kind_isMod l1 l2 hperm hpair]
    have ek : toksKeep l1 = toksKeep l2 := by
      unfold toksKeep
      rw [filter_head_eq_of_perm STok.isKeep kind_isKeep l1 l2 hperm hpair]
    rw [et, er, em, ek]
  · intro s h
    cases hrep : matchRepeat s with
    | none =>
        simp only [Recognized, hrep, not_or, Option.isSome_iff_exists,
          not_exists] at h
        cases hsw : matchSwBase s with
        | some pr => exact absurd hsw (by simpa using h.1 pr)
        | none =>
            cases hgen : matchGenBase s with
            | some tr => exact absurd hgen (by simpa using h.2 tr)
            | none => simp [normalizeChars, hrep, hsw, hgen]
    | some pr =>
        obtain ⟨p, roll⟩ := pr
        simp only [Recognized, hrep, not_or, Option.isSome_iff_exists,
          not_exists] at h
        cases hsw : matchSwBase roll with
        | some pr2 => exact absurd hsw (by simpa using h.1 pr2)
        | none =>
            cases hgen : matchGenBase roll with
            | some tr => exact absurd hgen (by simpa using h.2 tr)
            | none => simp [normalizeChars, hrep, hsw, hgen]

theorem normalize_idempotent_and_permutation_witness :
    (normalizeChars (normalizeChars ("s8+2r4t5".data)) =
      normalizeChars ("s8+2r4t5".data)) ∧
    normalizeChars (swBuild none [] 's' ['8'] none
        [STok.modTok '+' ['2'], STok.raiseT 'r' ['4'], STok.target 't' ['5']])
      = normalizeChars (swBuild none [] 's' ['8'] none
        [STok.target 't' ['5'], STok.raiseT 'r' ['4'], STok.modTok '+' ['2']]) ∧
    normalizeChars ("hello".data) = "hello".data :=
  ⟨normalize_idempotent_and_permutation.1 ("s8+2r4t5".data),
    normalize_idempotent_and_permutation.2.1 none [] 's' ['8'] none
      [STok.modTok '+' ['2'], STok.raiseT 'r' ['4'], STok.target 't' ['5']]
      [STok.target 't' ['5'], STok.raiseT 'r' ['4'], STok.modTok '+' ['2']]
      trivial (by decide) (Or.inl rfl) (by decide) (by decide) trivial
      (by
        intro tok htok
        simp only [List.mem_cons, List.not_mem_nil, or_false] at htok
        rcases htok with rfl | rfl | rfl
        · exact ⟨Or.inl rfl, by decide, by decide⟩
        · exact ⟨Or.inl rfl, by decide, by decide⟩
        · exact ⟨Or.inl rfl, by decide, by decide⟩)
      (by decide) (by decide),
    normalize_idempotent_and_permutation.2.2.2 ("hello".data) (by decide)⟩

end NeoSavage
